import Mathlib

/-!
# Verification of the Preamble word analyzer

A shallow embedding of the `PreambleAnalyzer` React component (repository
`my-preamble`).  The repository carries two full variants of the component in
`src/PreambleAnalyzer.jsx`:

* variant A (top of the file): segment bounds 60–90 s, with the
  "Tranquility" keyword-pause protocol;
* variant B (below the separator): segment bounds 130–170 s, no keyword
  protocol, past-end branch stops the loop and pauses the transport.

Times and playback progress are modelled as rationals.  The easing
computation `Math.pow(progress, EASING_FACTOR)` (a non-integer power) is the
one numeric operation that has no exact rational counterpart, so the easing
function is a parameter `ease : ℚ → ℚ` of the embedding; theorems assume of
it only properties that `p ↦ p ^ e` with `e ≥ 1` enjoys on `[0, 1]`
(`EaseOK` below), and concrete runs instantiate it with an explicitly
representable easing (the source comments document the easing exponent as a
configuration knob, e.g. `2.0 = quadratic`).
-/

/-! ## Tokenizer and word utilities -/

/-- Splitting a string at every single space, as JS `String.split(' ')`. -/
def splitSpacesAux : List Char → List Char → List String
  | [], acc => [String.mk acc.reverse]
  | c :: cs, acc =>
      if c == ' ' then String.mk acc.reverse :: splitSpacesAux cs []
      else splitSpacesAux cs (c :: acc)

def splitSpaces (s : String) : List String := splitSpacesAux s.toList []

/-- JS `toLowerCase` on the ASCII passage. -/
def toLowerStr (s : String) : String := String.mk (s.toList.map Char.toLower)

/-- JS `replace(/[.,]/g, "")`: remove every comma and period. -/
def removePunct (w : String) : String :=
  String.mk (w.toList.filter (fun c => !(c == ',' || c == '.')))

/-- `normalizeWord` from the source: lowercase, then remove `[.,]`. -/
def normalizeWord (w : String) : String := removePunct (toLowerStr w)

/-- JS `startsWith(c)` for a single character. -/
def strStartsWith (w : String) (c : Char) : Bool :=
  match w.toList with
  | [] => false
  | a :: _ => a == c

/-- JS `endsWith(c)` for a single character. -/
def strEndsWith (w : String) (c : Char) : Bool :=
  match w.toList.getLast? with
  | none => false
  | some a => a == c

/-- JS `slice(0, -1)`: drop the last character. -/
def sliceLast (w : String) : String := String.mk w.toList.dropLast

/-- Variant A's counting path cleans the lowercased word by slicing off one
trailing comma or period (`word.slice(0, -1)`). -/
def cleanSliceA (w : String) : String :=
  let lw := toLowerStr w
  if strEndsWith lw ',' || strEndsWith lw '.' then sliceLast lw else lw

/-- Modelled from the spec: lowercase the token and strip the trailing run of
commas and periods, leaving interior characters unchanged. -/
def specNormalize (w : String) : String :=
  String.mk (((toLowerStr w).toList.reverse.dropWhile
    (fun c => c == ',' || c == '.')).reverse)

/-- Classification bits of `computeCounts` from the source. -/
structure Counts where
  startsT : Bool
  endsE : Bool
  both : Bool

def computeCounts (word : String) : Counts :=
  let cleanWord := normalizeWord word
  { startsT := strStartsWith cleanWord 't'
  , endsE := strEndsWith cleanWord 'e'
  , both := strStartsWith cleanWord 't' && strEndsWith cleanWord 'e' }

/-- The fixed passage of variant A (and of the README variant). -/
def PreambleA : String :=
  "We the People, in Order to form a more perfect Union, establish Justice, insure domestic Tranquility, provide for the common defence, promote the general Welfare, and secure the Blessings of Liberty to ourselves and our Posterity, do ordain and establish this Constitution for the United States of America."

def wordsA : List String := splitSpaces PreambleA

/-- The fixed passage of variant B (inserts "of the United States,"). -/
def PreambleB : String :=
  "We the People, of the United States, in Order to form a more perfect Union, establish Justice, insure domestic Tranquility, provide for the common defence, promote the general Welfare, and secure the Blessings of Liberty to ourselves and our Posterity, do ordain and establish this Constitution for the United States of America."

def wordsB : List String := splitSpaces PreambleB

/-- `words.findIndex(w => w.toLowerCase().replace(/[.,]/g, '') === 'tranquility')`:
JS `findIndex` yields `-1` when no element matches. -/
def tranquilityIndex (ws : List String) : Int :=
  match ws.findIdx? (fun w => normalizeWord w == "tranquility") with
  | some i => (i : Int)
  | none => -1

/-! ## Progress-to-index mapping -/

def startOffsetA : ℚ := 60
def preambleEndA : ℚ := 90
def startOffsetB : ℚ := 130
def preambleEndB : ℚ := 170

/-- `progress < 1 ? Math.pow(progress, EASING_FACTOR) : progress`. -/
def easedProgress (ease : ℚ → ℚ) (p : ℚ) : ℚ := if p < 1 then ease p else p

/-- `Math.floor(easedProgress * words.length)` — the progress-to-index
mapping inlined in both variants' update loops. -/
def mapIndex (ease : ℚ → ℚ) (p : ℚ) (n : ℕ) : Int :=
  Int.floor (easedProgress ease p * (n : ℚ))

/-- `Math.min(effectiveTime / preambleDuration, 1.0)` for variant A. -/
def progressA (t : ℚ) : ℚ := min ((t - startOffsetA) / (preambleEndA - startOffsetA)) 1

def progressB (t : ℚ) : ℚ := min ((t - startOffsetB) / (preambleEndB - startOffsetB)) 1

def idxA (ease : ℚ → ℚ) (t : ℚ) : Int := mapIndex ease (progressA t) wordsA.length

def idxB (ease : ℚ → ℚ) (t : ℚ) : Int := mapIndex ease (progressB t) wordsB.length

/-- The properties of `p ↦ p ^ e`, `e ≥ 1`, on `[0,1]` that the update loop
relies on (the source fixes `e = 1.15`). -/
structure EaseOK (ease : ℚ → ℚ) : Prop where
  zero : ease 0 = 0
  mono : ∀ p q : ℚ, 0 ≤ p → p ≤ q → q ≤ 1 → ease p ≤ ease q
  lower : ∀ p : ℚ, 0 ≤ p → p ≤ 1 → 0 ≤ ease p
  upper : ∀ p : ℚ, 0 ≤ p → p < 1 → ease p < 1

/-! ## Component state -/

/-- Commands the driver issues to the media transport. -/
inductive Cmd where
  | pause
  | play
  | seek (t : ℚ)
deriving DecidableEq

/-- Transport state-change notifications. -/
inductive PlayerEvent where
  | ended
  | paused
  | playing
deriving DecidableEq

/-- The component's mutable state: React state hooks, the refs
(`countedWordsRef`, `pauseStartTimeRef`, `hasPausedAtTranquilityRef`,
`lastIndexRef`), plus a log of commands issued to the transport.  The dedup
ledger `counted` holds the `${index}-${word}` keys as pairs. -/
structure AppState where
  currentIndex : Int
  startsWithT : Nat
  endsWithE : Nat
  doesBoth : Nat
  loopRunning : Bool
  isManualMode : Bool
  manualIndex : Int
  isPausedAtTranquility : Bool
  counted : List (Int × String)
  pauseStartTime : Option ℚ
  hasPausedAtTranquility : Bool
  lastIndex : Int
  commands : List Cmd

def initialState : AppState :=
  { currentIndex := -1
  , startsWithT := 0
  , endsWithE := 0
  , doesBoth := 0
  , loopRunning := false
  , isManualMode := false
  , manualIndex := -1
  , isPausedAtTranquility := false
  , counted := []
  , pauseStartTime := none
  , hasPausedAtTranquility := false
  , lastIndex := -1
  , commands := [] }

/-- `const activeIndex = isManualMode ? manualIndex : currentIndex`. -/
def activeIndexOf (s : AppState) : Int :=
  if s.isManualMode then s.manualIndex else s.currentIndex

/-! ## The counting block (dedup ledger + counters) -/

/-- The `countedWordsRef` dedup block shared by both variants, parametrised
by the two classification tests (variant A tests the sliced word directly,
variant B tests via `computeCounts`). -/
def countBlockGen (startsP endsP : String → Bool) (index : Int) (word : String)
    (s : AppState) : AppState :=
  let wordKey : Int × String := (index, word)
  if wordKey ∈ s.counted then s
  else
    let s1 := { s with counted := wordKey :: s.counted }
    let s2 := if startsP word then { s1 with startsWithT := s1.startsWithT + 1 } else s1
    let s3 := if endsP word then { s2 with endsWithE := s2.endsWithE + 1 } else s2
    if startsP word && endsP word then { s3 with doesBoth := s3.doesBoth + 1 } else s3

/-! ## Variant A update loop (keyword protocol) -/

/-- The body of variant A's guarded branch
(`index !== lastIndexRef.current && index >= 0 && index < words.length`):
either the one-shot Tranquility trigger, or apply-and-count. -/
def applyIndexA (index : Int) (currentTime : ℚ) (s : AppState) : AppState :=
  let word := toLowerStr (wordsA.getD index.toNat "")
  let cleanWord := removePunct word
  if cleanWord = "tranquility" ∧ s.hasPausedAtTranquility = false then
    { s with hasPausedAtTranquility := true
           , isPausedAtTranquility := true
           , pauseStartTime := some currentTime
           , lastIndex := index
           , currentIndex := index
           , commands := s.commands ++ [Cmd.pause] }
  else
    let word := if strEndsWith word ',' || strEndsWith word '.' then sliceLast word else word
    countBlockGen (fun w => strStartsWith w 't') (fun w => strEndsWith w 'e') index word
      { s with lastIndex := index, currentIndex := index }

/-- One pass of variant A's `update` animation-frame callback at transport
time `currentTime`. -/
def updateA (ease : ℚ → ℚ) (currentTime : ℚ) (s : AppState) : AppState :=
  if currentTime < startOffsetA then s
  else if preambleEndA < currentTime then
    { s with currentIndex := (wordsA.length : Int) - 1 }
  else
    let index := idxA ease currentTime
    if s.isPausedAtTranquility then
      if 0 ≤ tranquilityIndex wordsA then { s with currentIndex := tranquilityIndex wordsA }
      else s
    else if index ≠ s.lastIndex ∧ 0 ≤ index ∧ index < (wordsA.length : Int) then
      applyIndexA index currentTime s
    else s

/-- The body of the `setTimeout` armed by the Tranquility trigger: seek
forward 0.3 s from the paused time (`pauseStartTimeRef.current ||
getCurrentTime()`), re-pin `lastIndexRef` to the keyword's index, clear the
pause flag, and resume playback. -/
def resumeFireA (fallbackTime : ℚ) (s : AppState) : AppState :=
  let pausedTime :=
    match s.pauseStartTime with
    | some t => if t = 0 then fallbackTime else t
    | none => fallbackTime
  let s1 := { s with commands := s.commands ++ [Cmd.seek (pausedTime + 3/10)] }
  let s2 :=
    if 0 ≤ tranquilityIndex wordsA then { s1 with lastIndex := tranquilityIndex wordsA }
    else s1
  let s3 := { s2 with isPausedAtTranquility := false, pauseStartTime := none }
  { s3 with commands := s3.commands ++ [Cmd.play] }

/-- Variant A's `onStateChange` handler: stop on ENDED; stop on PAUSED only
when the pause was not self-initiated (`!hasPausedAtTranquilityRef.current`). -/
def onStateChangeA (e : PlayerEvent) (s : AppState) : AppState :=
  let s1 :=
    if e = PlayerEvent.ended then
      { s with loopRunning := false, currentIndex := (wordsA.length : Int) - 1 }
    else s
  if e = PlayerEvent.paused ∧ s1.hasPausedAtTranquility = false then
    { s1 with loopRunning := false }
  else s1

/-- The events a variant-A video-synced run processes: animation-frame ticks
(carrying the transport time read), the keyword-pause resume timer firing
(carrying the fallback time read), and transport state changes. -/
inductive EventA where
  | tick (t : ℚ)
  | resume (fallback : ℚ)
  | stateChange (e : PlayerEvent)

/-- One event step.  A tick only runs while the loop is running (stopping the
loop cancels the scheduled animation frame). -/
def stepA (ease : ℚ → ℚ) : EventA → AppState → AppState
  | EventA.tick t, s => if s.loopRunning then updateA ease t s else s
  | EventA.resume f, s => resumeFireA f s
  | EventA.stateChange e, s => onStateChangeA e s

def runA (ease : ℚ → ℚ) (s : AppState) (es : List EventA) : AppState :=
  es.foldl (fun s e => stepA ease e s) s

/-! ## Variant B update loop (no keyword protocol) -/

/-- One pass of variant B's `update` callback: past the segment end it pins
the last word, stops the loop and pauses the transport; otherwise it applies
and counts the mapped index when it changed. -/
def updateB (ease : ℚ → ℚ) (currentTime : ℚ) (s : AppState) : AppState :=
  if currentTime < startOffsetB then s
  else if preambleEndB < currentTime then
    { s with currentIndex := (wordsB.length : Int) - 1
           , loopRunning := false
           , commands := s.commands ++ [Cmd.pause] }
  else
    let index := idxB ease currentTime
    if index ≠ s.lastIndex ∧ 0 ≤ index ∧ index < (wordsB.length : Int) then
      let cleanWord := normalizeWord (wordsB.getD index.toNat "")
      countBlockGen (fun w => (computeCounts w).startsT) (fun w => (computeCounts w).endsE)
        index cleanWord { s with lastIndex := index, currentIndex := index }
    else s

/-- A variant-B tick: the update runs only while the loop is running. -/
def tickB (ease : ℚ → ℚ) (t : ℚ) (s : AppState) : AppState :=
  if s.loopRunning then updateB ease t s else s

def runB (ease : ℚ → ℚ) (s : AppState) (ts : List ℚ) : AppState :=
  ts.foldl (fun s t => tickB ease t s) s

/-- The sequence of `currentIndex` values observed after each tick. -/
def idxTraceB (ease : ℚ → ℚ) : AppState → List ℚ → List Int
  | _, [] => []
  | s, t :: ts => (tickB ease t s).currentIndex :: idxTraceB ease (tickB ease t s) ts

/-! ## Manual mode -/

/-- One scheduler round of the manual-mode effect (variant B's loop; variant
A's differs only in styling of the same logic): if the last word was reached
the mode switches off without arming a timer; otherwise the timer fires,
advancing `manualIndex` by one and counting the newly active word. -/
def manualStepB (ws : List String) (s : AppState) : AppState :=
  if !s.isManualMode || s.loopRunning then s
  else if (ws.length : Int) - 1 ≤ s.manualIndex then { s with isManualMode := false }
  else
    let nextIndex := s.manualIndex + 1
    let s1 :=
      if nextIndex < (ws.length : Int) then
        let cleanWord := normalizeWord (ws.getD nextIndex.toNat "")
        let counts := computeCounts cleanWord
        let sa := if counts.startsT then { s with startsWithT := s.startsWithT + 1 } else s
        let sb := if counts.endsE then { sa with endsWithE := sa.endsWithE + 1 } else sa
        if counts.both then { sb with doesBoth := sb.doesBoth + 1 } else sb
      else s
    { s1 with manualIndex := nextIndex }

/-- State right after `handleStartManual` (manual mode armed, nothing run). -/
def manualStartState : AppState := { initialState with isManualMode := true }

/-! ## Buttons / reset -/

/-- Variant A's `handleStartWithVideo`: inline reset of every counter, index,
ref and flag, then seek to the segment start, play, and start the loop. -/
def handleStartWithVideoA (s : AppState) : AppState :=
  { s with startsWithT := 0
         , endsWithE := 0
         , doesBoth := 0
         , currentIndex := -1
         , counted := []
         , isManualMode := false
         , manualIndex := -1
         , isPausedAtTranquility := false
         , pauseStartTime := none
         , hasPausedAtTranquility := false
         , lastIndex := -1
         , commands := s.commands ++ [Cmd.seek startOffsetA, Cmd.play]
         , loopRunning := true }

/-- Variant A's `handleStartManual` (note: it does not reset `lastIndexRef`,
which manual mode never reads). -/
def handleStartManualA (s : AppState) : AppState :=
  { s with startsWithT := 0
         , endsWithE := 0
         , doesBoth := 0
         , currentIndex := -1
         , counted := []
         , loopRunning := false
         , manualIndex := -1
         , isManualMode := true
         , isPausedAtTranquility := false
         , pauseStartTime := none
         , hasPausedAtTranquility := false
         , commands := s.commands ++ [Cmd.pause] }

/-- Variant B's `resetAll`. -/
def resetAllB (s : AppState) : AppState :=
  { s with startsWithT := 0
         , endsWithE := 0
         , doesBoth := 0
         , currentIndex := -1
         , manualIndex := -1
         , counted := []
         , lastIndex := -1 }

/-- Variant B's `handleStartWithVideo`. -/
def handleStartWithVideoB (s : AppState) : AppState :=
  let s1 := resetAllB s
  let s2 := { s1 with isManualMode := false }
  { s2 with commands := s2.commands ++ [Cmd.seek startOffsetB, Cmd.play]
          , loopRunning := true }

/-- Variant B's `handleStartManual`. -/
def handleStartManualB (s : AppState) : AppState :=
  let s1 := resetAllB s
  let s2 := { s1 with loopRunning := false, isManualMode := true }
  { s2 with commands := s2.commands ++ [Cmd.pause] }

/-- A freshly started variant-A video-synced run. -/
def startA : AppState := handleStartWithVideoA initialState

/-- A freshly started variant-B video-synced run. -/
def startB : AppState := handleStartWithVideoB initialState

/-- The counting engine driven by a sequence of `recordIndex` events: the
word recorded with index `i` is `wf i` (in the source it is always the
cleaned form of `words[i]`, so it is a function of the index). -/
def runCount (startsP endsP : String → Bool) (wf : Int → String) (is : List Int) : AppState :=
  is.foldl (fun s i => countBlockGen startsP endsP i (wf i) s) initialState

/-! ## Basic facts about the embedding -/

lemma wordsA_len : wordsA.length = 48 := by decide

lemma wordsB_len : wordsB.length = 52 := by decide

lemma tranquilityIndex_wordsA : tranquilityIndex wordsA = 15 := by decide

/-- The quadratic easing (`easingFactor = 2.0` in the source's own
nomenclature), used to instantiate concrete runs. -/
def easeSq : ℚ → ℚ := fun p => p * p

lemma easeOK_easeSq : EaseOK easeSq :=
  ⟨by norm_num [easeSq],
   fun p q hp hpq hq => mul_le_mul hpq hpq hp (le_trans hp hpq),
   fun p hp _ => mul_nonneg hp hp,
   fun p hp h1 => by simp only [easeSq]; nlinarith⟩

/-- `countBlockGen` as a single conditional record update. -/
lemma countBlockGen_eq (sp ep : String → Bool) (i : Int) (w : String) (s : AppState) :
    countBlockGen sp ep i w s =
      if (i, w) ∈ s.counted then s
      else
        { s with counted := (i, w) :: s.counted
               , startsWithT := s.startsWithT + (if sp w then 1 else 0)
               , endsWithE := s.endsWithE + (if ep w then 1 else 0)
               , doesBoth := s.doesBoth + (if sp w && ep w then 1 else 0) } := by
  unfold countBlockGen
  split_ifs <;> simp_all

/-! ## Claim C7 -/

/-- Claim C7: after reset — hence at the start of every run begun through
`handleStartWithVideo` or `handleStartManual` (variant A) or through
`resetAll` and the variant-B handlers — all three counters are 0, the dedup
ledger is empty, the active index is -1, and (in the keyword-enabled
variant) the one-shot Tranquility latch and pause flag are cleared,
regardless of the prior state. -/
theorem c7_reset_clears_run_state (s : AppState) :
    ((handleStartWithVideoA s).startsWithT = 0 ∧ (handleStartWithVideoA s).endsWithE = 0 ∧
      (handleStartWithVideoA s).doesBoth = 0 ∧ (handleStartWithVideoA s).counted = [] ∧
      activeIndexOf (handleStartWithVideoA s) = -1 ∧
      (handleStartWithVideoA s).hasPausedAtTranquility = false ∧
      (handleStartWithVideoA s).isPausedAtTranquility = false ∧
      (handleStartWithVideoA s).lastIndex = -1) ∧
    ((handleStartManualA s).startsWithT = 0 ∧ (handleStartManualA s).endsWithE = 0 ∧
      (handleStartManualA s).doesBoth = 0 ∧ (handleStartManualA s).counted = [] ∧
      activeIndexOf (handleStartManualA s) = -1 ∧
      (handleStartManualA s).hasPausedAtTranquility = false ∧
      (handleStartManualA s).isPausedAtTranquility = false) ∧
    ((resetAllB s).startsWithT = 0 ∧ (resetAllB s).endsWithE = 0 ∧
      (resetAllB s).doesBoth = 0 ∧ (resetAllB s).counted = [] ∧
      (resetAllB s).currentIndex = -1 ∧ (resetAllB s).manualIndex = -1 ∧
      (resetAllB s).lastIndex = -1) ∧
    ((handleStartWithVideoB s).startsWithT = 0 ∧ (handleStartWithVideoB s).endsWithE = 0 ∧
      (handleStartWithVideoB s).doesBoth = 0 ∧ (handleStartWithVideoB s).counted = [] ∧
      activeIndexOf (handleStartWithVideoB s) = -1 ∧ (handleStartWithVideoB s).lastIndex = -1) ∧
    ((handleStartManualB s).startsWithT = 0 ∧ (handleStartManualB s).endsWithE = 0 ∧
      (handleStartManualB s).doesBoth = 0 ∧ (handleStartManualB s).counted = [] ∧
      activeIndexOf (handleStartManualB s) = -1 ∧ (handleStartManualB s).lastIndex = -1) := by
  refine ⟨⟨rfl, rfl, rfl, rfl, rfl, rfl, rfl, rfl⟩, ⟨rfl, rfl, rfl, rfl, rfl, rfl, rfl⟩,
    ⟨rfl, rfl, rfl, rfl, rfl, rfl, rfl⟩, ⟨rfl, rfl, rfl, rfl, rfl, rfl⟩,
    ⟨rfl, rfl, rfl, rfl, rfl, rfl⟩⟩

/-! ## Claim C8 -/

/-- Claim C8: for every token of either passage, the normalized form used
for classification and keyword matching — whether produced by the
regex-based `normalizeWord` or by variant A's slice-one-trailing-character
cleaning — equals the raw token lowercased with its trailing commas and
periods stripped, interior characters unchanged (`specNormalize`). -/
theorem c8_normalization (w : String) (hw : w ∈ wordsA ∨ w ∈ wordsB) :
    normalizeWord w = specNormalize w ∧ cleanSliceA w = specNormalize w := by
  have hA : wordsA.all
      (fun w => normalizeWord w == specNormalize w && (cleanSliceA w == specNormalize w)) = true := by
    decide
  have hB : wordsB.all
      (fun w => normalizeWord w == specNormalize w && (cleanSliceA w == specNormalize w)) = true := by
    decide
  rcases hw with h | h
  · have h2 := List.all_eq_true.mp hA w h
    simp only [Bool.and_eq_true, beq_iff_eq] at h2
    exact h2
  · have h2 := List.all_eq_true.mp hB w h
    simp only [Bool.and_eq_true, beq_iff_eq] at h2
    exact h2

theorem c8_normalization_witness :
    ("Tranquility," ∈ wordsA ∨ "Tranquility," ∈ wordsB) ∧
      (normalizeWord "Tranquility," = specNormalize "Tranquility," ∧
       cleanSliceA "Tranquility," = specNormalize "Tranquility,") :=
  ⟨Or.inl (by decide), c8_normalization "Tranquility," (Or.inl (by decide))⟩

/-! ## Claim C1 -/

lemma mem_map_pair (wf : Int → String) (i : Int) (L : List Int) :
    (i, wf i) ∈ L.map (fun j => (j, wf j)) ↔ i ∈ L := by
  constructor
  · intro h
    rcases List.mem_map.mp h with ⟨j, hj, hji⟩
    cases hji
    exact hj
  · intro h
    exact List.mem_map.mpr ⟨i, h, rfl⟩

lemma runCount_aux (startsP endsP : String → Bool) (wf : Int → String) :
    ∀ (is : List Int) (L : List Int) (s : AppState),
      s.counted = L.map (fun j => (j, wf j)) → L.Nodup →
      s.startsWithT = (L.filter (fun i => startsP (wf i))).length →
      s.endsWithE = (L.filter (fun i => endsP (wf i))).length →
      s.doesBoth = (L.filter (fun i => startsP (wf i) && endsP (wf i))).length →
      ∃ L' : List Int,
        L'.Nodup ∧ (∀ j, j ∈ L' ↔ j ∈ L ∨ j ∈ is) ∧
        (is.foldl (fun s i => countBlockGen startsP endsP i (wf i) s) s).startsWithT
            = (L'.filter (fun i => startsP (wf i))).length ∧
        (is.foldl (fun s i => countBlockGen startsP endsP i (wf i) s) s).endsWithE
            = (L'.filter (fun i => endsP (wf i))).length ∧
        (is.foldl (fun s i => countBlockGen startsP endsP i (wf i) s) s).doesBoth
            = (L'.filter (fun i => startsP (wf i) && endsP (wf i))).length := by
  intro is
  induction is with
  | nil =>
      intro L s hc hn h1 h2 h3
      exact ⟨L, hn, fun j => by simp, h1, h2, h3⟩
  | cons i is ih =>
      intro L s hc hn h1 h2 h3
      simp only [List.foldl_cons]
      rw [countBlockGen_eq]
      by_cases hmem : ((i, wf i) : Int × String) ∈ s.counted
      · rw [if_pos hmem]
        have hiL : i ∈ L := by
          rw [hc] at hmem
          exact (mem_map_pair wf i L).mp hmem
        rcases ih L s hc hn h1 h2 h3 with ⟨L', hn', hm', e1, e2, e3⟩
        refine ⟨L', hn', fun j => ?_, e1, e2, e3⟩
        rw [hm']
        constructor
        · rintro (h | h)
          · exact Or.inl h
          · exact Or.inr (List.mem_cons_of_mem _ h)
        · rintro (h | h)
          · exact Or.inl h
          · rcases List.mem_cons.mp h with h | h
            · exact Or.inl (h ▸ hiL)
            · exact Or.inr h
      · rw [if_neg hmem]
        have hiL : i ∉ L := fun h => hmem (hc ▸ (mem_map_pair wf i L).mpr h)
        have hcix : ((i, wf i) :: s.counted : List (Int × String))
            = (i :: L).map (fun j => (j, wf j)) := by
          simp [hc]
        have hnx : (i :: L).Nodup := List.nodup_cons.mpr ⟨hiL, hn⟩
        have g1 : s.startsWithT + (if startsP (wf i) then 1 else 0)
            = ((i :: L).filter (fun i => startsP (wf i))).length := by
          rw [h1, List.filter_cons]
          split_ifs <;> simp [Nat.add_comm]
        have g2 : s.endsWithE + (if endsP (wf i) then 1 else 0)
            = ((i :: L).filter (fun i => endsP (wf i))).length := by
          rw [h2, List.filter_cons]
          split_ifs <;> simp [Nat.add_comm]
        have g3 : s.doesBoth + (if startsP (wf i) && endsP (wf i) then 1 else 0)
            = ((i :: L).filter (fun i => startsP (wf i) && endsP (wf i))).length := by
          rw [h3, List.filter_cons]
          split_ifs <;> simp [Nat.add_comm]
        rcases ih (i :: L)
            { s with counted := (i, wf i) :: s.counted
                   , startsWithT := s.startsWithT + (if startsP (wf i) then 1 else 0)
                   , endsWithE := s.endsWithE + (if endsP (wf i) then 1 else 0)
                   , doesBoth := s.doesBoth + (if startsP (wf i) && endsP (wf i) then 1 else 0) }
            hcix hnx g1 g2 g3 with ⟨L', hn', hm', e1, e2, e3⟩
        refine ⟨L', hn', fun j => ?_, e1, e2, e3⟩
        rw [hm']
        constructor
        · rintro (h | h)
          · rcases List.mem_cons.mp h with h | h
            · exact Or.inr (h ▸ List.mem_cons_self i is)
            · exact Or.inl h
          · exact Or.inr (List.mem_cons_of_mem _ h)
        · rintro (h | h)
          · exact Or.inl (List.mem_cons_of_mem _ h)
          · rcases List.mem_cons.mp h with h | h
            · exact Or.inl (h ▸ List.mem_cons_self i L)
            · exact Or.inr h

lemma filter_length_eq_of_nodup_mem (p : Int → Bool) (L M : List Int)
    (hL : L.Nodup) (hM : M.Nodup) (hmem : ∀ j, j ∈ L ↔ j ∈ M) :
    (L.filter p).length = (M.filter p).length := by
  have hperm : L.Perm M := (List.perm_ext_iff_of_nodup hL hM).mpr hmem
  exact (hperm.filter p).length_eq

/-- Claim C1: counting is idempotent under replay.  Driving the counting
block with any sequence of index events (the recorded word being determined
by the index, as in the source where it is always derived from `words[i]`)
from a freshly reset state yields counters that equal the number of
*distinct* indices whose classification bit is set, no matter how many
duplicate index events occur. -/
theorem c1_counting_idempotent (startsP endsP : String → Bool) (wf : Int → String)
    (is : List Int) :
    (runCount startsP endsP wf is).startsWithT
        = (is.dedup.filter (fun i => startsP (wf i))).length ∧
    (runCount startsP endsP wf is).endsWithE
        = (is.dedup.filter (fun i => endsP (wf i))).length ∧
    (runCount startsP endsP wf is).doesBoth
        = (is.dedup.filter (fun i => startsP (wf i) && endsP (wf i))).length := by
  rcases runCount_aux startsP endsP wf is [] initialState rfl List.nodup_nil rfl rfl rfl with
    ⟨L', hn', hm', e1, e2, e3⟩
  have hmem : ∀ j, j ∈ L' ↔ j ∈ is.dedup := by
    intro j
    rw [hm', List.mem_dedup]
    simp
  refine ⟨?_, ?_, ?_⟩
  · rw [runCount, e1]
    exact filter_length_eq_of_nodup_mem _ _ _ hn' (List.nodup_dedup is) hmem
  · rw [runCount, e2]
    exact filter_length_eq_of_nodup_mem _ _ _ hn' (List.nodup_dedup is) hmem
  · rw [runCount, e3]
    exact filter_length_eq_of_nodup_mem _ _ _ hn' (List.nodup_dedup is) hmem

/-! ## Projection lemmas for the counting block -/

lemma countBlockGen_proj (sp ep : String → Bool) (i : Int) (w : String) (s : AppState) :
    (countBlockGen sp ep i w s).currentIndex = s.currentIndex ∧
    (countBlockGen sp ep i w s).lastIndex = s.lastIndex ∧
    (countBlockGen sp ep i w s).loopRunning = s.loopRunning ∧
    (countBlockGen sp ep i w s).isManualMode = s.isManualMode ∧
    (countBlockGen sp ep i w s).manualIndex = s.manualIndex ∧
    (countBlockGen sp ep i w s).isPausedAtTranquility = s.isPausedAtTranquility ∧
    (countBlockGen sp ep i w s).pauseStartTime = s.pauseStartTime ∧
    (countBlockGen sp ep i w s).hasPausedAtTranquility = s.hasPausedAtTranquility ∧
    (countBlockGen sp ep i w s).commands = s.commands := by
  rw [countBlockGen_eq]
  by_cases h : ((i, w) : Int × String) ∈ s.counted
  · rw [if_pos h]
    exact ⟨rfl, rfl, rfl, rfl, rfl, rfl, rfl, rfl, rfl⟩
  · rw [if_neg h]
    exact ⟨rfl, rfl, rfl, rfl, rfl, rfl, rfl, rfl, rfl⟩

lemma countBlockGen_counted (sp ep : String → Bool) (i : Int) (w : String) (s : AppState) :
    (countBlockGen sp ep i w s).counted = s.counted ∨
    (countBlockGen sp ep i w s).counted = (i, w) :: s.counted := by
  rw [countBlockGen_eq]
  by_cases h : ((i, w) : Int × String) ∈ s.counted
  · rw [if_pos h]
    exact Or.inl rfl
  · rw [if_neg h]
    exact Or.inr rfl

/-- `onStateChange` only touches `loopRunning` and `currentIndex`. -/
lemma onStateChangeA_proj (e : PlayerEvent) (s : AppState) :
    (onStateChangeA e s).commands = s.commands ∧
    (onStateChangeA e s).hasPausedAtTranquility = s.hasPausedAtTranquility ∧
    (onStateChangeA e s).counted = s.counted ∧
    (onStateChangeA e s).lastIndex = s.lastIndex ∧
    (onStateChangeA e s).isPausedAtTranquility = s.isPausedAtTranquility ∧
    (onStateChangeA e s).pauseStartTime = s.pauseStartTime := by
  cases e with
  | ended =>
      unfold onStateChangeA
      rw [if_pos rfl, if_neg (fun h => PlayerEvent.noConfusion h.1)]
      exact ⟨rfl, rfl, rfl, rfl, rfl, rfl⟩
  | paused =>
      unfold onStateChangeA
      rw [if_neg (fun h => PlayerEvent.noConfusion h)]
      by_cases h2 : s.hasPausedAtTranquility = false
      · rw [if_pos ⟨rfl, h2⟩]
        exact ⟨rfl, rfl, rfl, rfl, rfl, rfl⟩
      · rw [if_neg (fun hh => h2 hh.2)]
        exact ⟨rfl, rfl, rfl, rfl, rfl, rfl⟩
  | playing =>
      unfold onStateChangeA
      rw [if_neg (fun h => PlayerEvent.noConfusion h),
        if_neg (fun hh => PlayerEvent.noConfusion hh.1)]
      exact ⟨rfl, rfl, rfl, rfl, rfl, rfl⟩

/-! ## Claim C5 -/

/-- Each event either leaves the pause-command count and the one-shot latch
unchanged, or is the Tranquility trigger: one new pause command, latch flips
from unset to set. -/
lemma stepA_pause_step (ease : ℚ → ℚ) (e : EventA) (s : AppState) :
    ((stepA ease e s).commands.count Cmd.pause = s.commands.count Cmd.pause ∧
      (stepA ease e s).hasPausedAtTranquility = s.hasPausedAtTranquility) ∨
    ((stepA ease e s).commands.count Cmd.pause = s.commands.count Cmd.pause + 1 ∧
      s.hasPausedAtTranquility = false ∧
      (stepA ease e s).hasPausedAtTranquility = true) := by
  cases e with
  | tick t =>
      simp only [stepA]
      by_cases hr : s.loopRunning = true
      · rw [if_pos hr]
        unfold updateA
        by_cases h1 : t < startOffsetA
        · rw [if_pos h1]
          exact Or.inl ⟨rfl, rfl⟩
        rw [if_neg h1]
        by_cases h2 : preambleEndA < t
        · rw [if_pos h2]
          exact Or.inl ⟨rfl, rfl⟩
        rw [if_neg h2]
        by_cases h3 : s.isPausedAtTranquility = true
        · rw [if_pos h3]
          by_cases h4 : (0 : Int) ≤ tranquilityIndex wordsA
          · rw [if_pos h4]
            exact Or.inl ⟨rfl, rfl⟩
          · rw [if_neg h4]
            exact Or.inl ⟨rfl, rfl⟩
        rw [if_neg h3]
        by_cases h5 : idxA ease t ≠ s.lastIndex ∧ 0 ≤ idxA ease t ∧
            idxA ease t < (wordsA.length : Int)
        · rw [if_pos h5]
          unfold applyIndexA
          by_cases h6 : removePunct (toLowerStr (wordsA.getD (idxA ease t).toNat ""))
              = "tranquility" ∧ s.hasPausedAtTranquility = false
          · rw [if_pos h6]
            refine Or.inr ⟨?_, h6.2, rfl⟩
            simp [List.count_append]
          · rw [if_neg h6]
            rcases countBlockGen_proj (fun w => strStartsWith w 't') (fun w => strEndsWith w 'e')
              (idxA ease t) _ { s with lastIndex := idxA ease t, currentIndex := idxA ease t }
              with ⟨-, -, -, -, -, -, -, h8, h9⟩
            exact Or.inl ⟨by rw [h9], by rw [h8]⟩
        · rw [if_neg h5]
          exact Or.inl ⟨rfl, rfl⟩
      · rw [if_neg hr]
        exact Or.inl ⟨rfl, rfl⟩
  | resume f =>
      refine Or.inl ⟨?_, ?_⟩
      · show (resumeFireA f s).commands.count Cmd.pause = _
        unfold resumeFireA
        split_ifs <;> simp [List.count_append]
      · show (resumeFireA f s).hasPausedAtTranquility = _
        unfold resumeFireA
        split_ifs <;> rfl
  | stateChange e =>
      rcases onStateChangeA_proj e s with ⟨hc, hl, -, -, -, -⟩
      exact Or.inl ⟨by rw [show stepA ease (EventA.stateChange e) s = onStateChangeA e s from rfl, hc],
        by rw [show stepA ease (EventA.stateChange e) s = onStateChangeA e s from rfl, hl]⟩

/-- run-level bound on pause commands. -/
lemma runA_pause_bound (ease : ℚ → ℚ) :
    ∀ (es : List EventA) (s : AppState),
      (runA ease s es).commands.count Cmd.pause ≤
        s.commands.count Cmd.pause + (if s.hasPausedAtTranquility then 0 else 1) := by
  intro es
  induction es with
  | nil =>
      intro s
      simp only [runA, List.foldl_nil]
      exact Nat.le_add_right _ _
  | cons e es ih =>
      intro s
      show (runA ease (stepA ease e s) es).commands.count Cmd.pause ≤ _
      rcases stepA_pause_step ease e s with ⟨hc, hl⟩ | ⟨hc, hl0, hl1⟩
      · calc (runA ease (stepA ease e s) es).commands.count Cmd.pause
            ≤ (stepA ease e s).commands.count Cmd.pause +
                (if (stepA ease e s).hasPausedAtTranquility then 0 else 1) := ih _
          _ = s.commands.count Cmd.pause + (if s.hasPausedAtTranquility then 0 else 1) := by
              rw [hc, hl]
      · calc (runA ease (stepA ease e s) es).commands.count Cmd.pause
            ≤ (stepA ease e s).commands.count Cmd.pause +
                (if (stepA ease e s).hasPausedAtTranquility then 0 else 1) := ih _
          _ = s.commands.count Cmd.pause + 1 := by rw [hc, hl1]; rfl
          _ ≤ _ := by rw [hl0]; exact Nat.le_refl _

/-- Claim C5: the keyword-pause protocol fires at most once per video-synced
run — over any event sequence from a freshly started run, at most one pause
command is ever issued to the transport (in variant A the trigger is the only
source of pause commands) — and the one-shot latch guarding it is never
cleared by any run event, only by the explicit resets. -/
theorem c5_keyword_pause_once (ease : ℚ → ℚ) :
    (∀ es : List EventA, (runA ease startA es).commands.count Cmd.pause ≤ 1) ∧
    (∀ (e : EventA) (s : AppState), s.hasPausedAtTranquility = true →
      (stepA ease e s).hasPausedAtTranquility = true) ∧
    (∀ s : AppState, (handleStartWithVideoA s).hasPausedAtTranquility = false ∧
      (handleStartManualA s).hasPausedAtTranquility = false) := by
  refine ⟨?_, ?_, fun s => ⟨rfl, rfl⟩⟩
  · intro es
    have h := runA_pause_bound ease es startA
    simpa using h
  · intro e s hl
    rcases stepA_pause_step ease e s with ⟨-, h⟩ | ⟨-, h0, h1⟩
    · rw [h, hl]
    · exact h1

theorem c5_keyword_pause_once_witness :
    (runA easeSq startA [EventA.tick 77, EventA.tick 77]).commands.count Cmd.pause ≤ 1 ∧
    (({ startA with hasPausedAtTranquility := true } : AppState).hasPausedAtTranquility = true ∧
      (stepA easeSq (EventA.tick 60)
        { startA with hasPausedAtTranquility := true }).hasPausedAtTranquility = true) :=
  ⟨(c5_keyword_pause_once easeSq).1 [EventA.tick 77, EventA.tick 77],
    rfl, (c5_keyword_pause_once easeSq).2.1 (EventA.tick 60) _ rfl⟩

/-! ## Claim C4 -/

/-- Claim C4 counterexample: at progress fraction exactly 1 the inlined
progress-to-index computation yields `N` (here `N = 48`), not `N - 1`; no
clamp to `[0, N-1]` is applied. -/
theorem c4_counterexample :
    mapIndex easeSq 1 48 = 48 ∧ ¬(mapIndex easeSq 1 48 ≤ 48 - 1) := by
  have h : mapIndex easeSq 1 48 = 48 := by
    unfold mapIndex easedProgress
    norm_num
  exact ⟨h, by rw [h]; norm_num⟩

/-- Claim C4 amended: the mapping yields 0 at progress 0, and for progress in
`[0, 1)` its output lies in `[0, N-1]`; but at progress exactly 1 it yields
`N` — there is no clamp; instead the advancement guard discards the
out-of-range value, so a variant-B tick at exactly the segment end leaves the
state unchanged (the `N-1` pin at the end of a run comes from the past-end
branch, not from clamping). -/
theorem c4_amended (ease : ℚ → ℚ) (h : EaseOK ease) (n : ℕ) (hn : 1 ≤ n) :
    mapIndex ease 0 n = 0 ∧
    (∀ p : ℚ, 0 ≤ p → p < 1 → 0 ≤ mapIndex ease p n ∧ mapIndex ease p n ≤ (n : Int) - 1) ∧
    mapIndex ease 1 n = (n : Int) ∧
    (∀ s : AppState, updateB ease preambleEndB s = s) := by
  refine ⟨?_, ?_, ?_, ?_⟩
  · unfold mapIndex easedProgress
    rw [if_pos (by norm_num), h.zero]
    simp
  · intro p hp0 hp1
    have he0 : 0 ≤ ease p := h.lower p hp0 (le_of_lt hp1)
    have he1 : ease p < 1 := h.upper p hp0 hp1
    have heq : easedProgress ease p = ease p := if_pos hp1
    have hn0 : (0 : ℚ) < (n : ℚ) := by exact_mod_cast hn
    constructor
    · rw [mapIndex, heq]
      exact Int.le_floor.mpr (by push_cast; positivity)
    · rw [mapIndex, heq]
      have : ease p * (n : ℚ) < (n : ℚ) := by
        calc ease p * (n : ℚ) < 1 * (n : ℚ) := by
              exact mul_lt_mul_of_pos_right he1 hn0
          _ = (n : ℚ) := one_mul _
      have hf : Int.floor (ease p * (n : ℚ)) < (n : Int) := Int.floor_lt.mpr (by push_cast; linarith)
      omega
  · unfold mapIndex easedProgress
    rw [if_neg (by norm_num)]
    simp
  · intro s
    have hidx : idxB ease preambleEndB = (wordsB.length : Int) := by
      unfold idxB mapIndex easedProgress progressB startOffsetB preambleEndB
      rw [if_neg (by norm_num)]
      norm_num
    unfold updateB
    rw [if_neg (by norm_num [startOffsetB, preambleEndB]), if_neg (by norm_num), hidx,
      if_neg (by rw [wordsB_len]; intro hx; exact absurd hx.2.2 (by norm_num))]

theorem c4_amended_witness :
    EaseOK easeSq ∧ 1 ≤ 48 ∧
      (mapIndex easeSq 0 48 = 0 ∧
        (∀ p : ℚ, 0 ≤ p → p < 1 → 0 ≤ mapIndex easeSq p 48 ∧ mapIndex easeSq p 48 ≤ (48 : Int) - 1) ∧
        mapIndex easeSq 1 48 = (48 : Int) ∧
        (∀ s : AppState, updateB easeSq preambleEndB s = s)) := by
  exact ⟨easeOK_easeSq, by norm_num, c4_amended easeSq easeOK_easeSq 48 (by norm_num)⟩

/-! ## Claim C6 -/

/-- In variant A, a past-end tick from a fresh run only pins the index. -/
lemma tickA_95_startA : stepA easeSq (EventA.tick 95) startA
    = { startA with currentIndex := (wordsA.length : Int) - 1 } := by
  show (if startA.loopRunning then updateA easeSq 95 startA else startA) = _
  rw [if_pos (show startA.loopRunning = true from rfl)]
  unfold updateA
  rw [if_neg (by norm_num [startOffsetA]), if_pos (by norm_num [preambleEndA])]

/-- Claim C6 counterexample: in variant A a tick at time 95 — past the
configured segment end 90 — pins `activeIndex` to `tokenCount - 1` but does
not stop the sync loop and issues no pause command to the transport. -/
theorem c6_counterexample :
    preambleEndA < (95 : ℚ) ∧
    (stepA easeSq (EventA.tick 95) startA).currentIndex = (wordsA.length : Int) - 1 ∧
    (stepA easeSq (EventA.tick 95) startA).loopRunning = true ∧
    (stepA easeSq (EventA.tick 95) startA).commands.count Cmd.pause = 0 := by
  rw [tickA_95_startA]
  exact ⟨by norm_num [preambleEndA], rfl, rfl, by decide⟩

/-- Claim C6 amended: in variant B every past-end tick while the loop runs
sets `activeIndex` to `tokenCount - 1`, stops the loop, and issues a pause
command (terminal for the run); in variant A the past-end branch only pins
`activeIndex` — the loop keeps running and no pause command is issued. -/
theorem c6_amended (ease : ℚ → ℚ) :
    (∀ (t : ℚ) (s : AppState), preambleEndB < t → s.loopRunning = true →
      (tickB ease t s).currentIndex = (wordsB.length : Int) - 1 ∧
      (tickB ease t s).loopRunning = false ∧
      (tickB ease t s).commands = s.commands ++ [Cmd.pause]) ∧
    (∀ (t : ℚ) (s : AppState), preambleEndA < t → s.loopRunning = true →
      (stepA ease (EventA.tick t) s).currentIndex = (wordsA.length : Int) - 1 ∧
      (stepA ease (EventA.tick t) s).loopRunning = s.loopRunning ∧
      (stepA ease (EventA.tick t) s).commands = s.commands) := by
  constructor
  · intro t s ht hr
    have h1 : ¬ t < startOffsetB := by
      simp only [startOffsetB]
      simp only [preambleEndB] at ht
      linarith
    have heq : tickB ease t s =
        { s with currentIndex := (wordsB.length : Int) - 1
               , loopRunning := false
               , commands := s.commands ++ [Cmd.pause] } := by
      unfold tickB
      rw [if_pos hr]
      unfold updateB
      rw [if_neg h1, if_pos ht]
    rw [heq]
    exact ⟨rfl, rfl, rfl⟩
  · intro t s ht hr
    have h1 : ¬ t < startOffsetA := by
      simp only [startOffsetA]
      simp only [preambleEndA] at ht
      linarith
    have heq : stepA ease (EventA.tick t) s
        = { s with currentIndex := (wordsA.length : Int) - 1 } := by
      show (if s.loopRunning then updateA ease t s else s) = _
      rw [if_pos hr]
      unfold updateA
      rw [if_neg h1, if_pos ht]
    rw [heq]
    exact ⟨rfl, rfl, rfl⟩

theorem c6_amended_witness :
    preambleEndB < (171 : ℚ) ∧ startB.loopRunning = true ∧
      ((tickB easeSq 171 startB).currentIndex = (wordsB.length : Int) - 1 ∧
       (tickB easeSq 171 startB).loopRunning = false ∧
       (tickB easeSq 171 startB).commands = startB.commands ++ [Cmd.pause]) :=
  ⟨by norm_num [preambleEndB], rfl,
    (c6_amended easeSq).1 171 startB (by norm_num [preambleEndB]) rfl⟩

/-! ## Claim C2 -/

/-- After the past-end tick, a backward seek to the segment start makes the
guard apply index 0 again (index regression). -/
lemma tickA_60_after95 :
    stepA easeSq (EventA.tick 60) { startA with currentIndex := (wordsA.length : Int) - 1 }
      = { startA with currentIndex := 0
                    , lastIndex := 0
                    , counted := [((0 : Int), "we")]
                    , endsWithE := 1 } := by
  have hidx : idxA easeSq 60 = 0 := by
    unfold idxA mapIndex easedProgress progressA startOffsetA preambleEndA easeSq
    rw [wordsA_len]
    norm_num
  simp only [stepA]
  rw [if_pos (show ({ startA with currentIndex := (wordsA.length : Int) - 1 }
    : AppState).loopRunning = true from rfl)]
  unfold updateA
  rw [if_neg (by norm_num [startOffsetA]), if_neg (by norm_num [preambleEndA]), hidx]
  rw [if_neg (by decide), if_pos (by decide)]
  rfl

/-- Claim C2 counterexample: with transport time readings 95 then 60 — a
backward seek, with no keyword-resume event anywhere in the run — the
applied `activeIndex` regresses from 47 to 0, so it is not non-decreasing
for every sequence of transport time readings. -/
theorem c2_counterexample :
    (runA easeSq startA [EventA.tick 95]).currentIndex = 47 ∧
    (runA easeSq startA [EventA.tick 95, EventA.tick 60]).currentIndex = 0 ∧
    ¬ ((runA easeSq startA [EventA.tick 95]).currentIndex
        ≤ (runA easeSq startA [EventA.tick 95, EventA.tick 60]).currentIndex) := by
  have h1 : runA easeSq startA [EventA.tick 95]
      = { startA with currentIndex := (wordsA.length : Int) - 1 } := tickA_95_startA
  have h2 : runA easeSq startA [EventA.tick 95, EventA.tick 60]
      = { startA with currentIndex := 0
                    , lastIndex := 0
                    , counted := [((0 : Int), "we")]
                    , endsWithE := 1 } := by
    show stepA easeSq (EventA.tick 60) (stepA easeSq (EventA.tick 95) startA) = _
    rw [tickA_95_startA, tickA_60_after95]
  rw [h1, h2]
  exact ⟨by decide, rfl, by decide⟩

/-! ## Monotonicity of the progress-to-index mapping -/

lemma easedProgress_mono (ease : ℚ → ℚ) (h : EaseOK ease) (p q : ℚ)
    (hp : 0 ≤ p) (hpq : p ≤ q) (hq : q ≤ 1) :
    easedProgress ease p ≤ easedProgress ease q := by
  unfold easedProgress
  by_cases h1 : p < 1
  · rw [if_pos h1]
    by_cases h2 : q < 1
    · rw [if_pos h2]
      exact h.mono p q hp hpq hq
    · rw [if_neg h2]
      have hu := h.upper p hp h1
      have := not_lt.mp h2
      linarith
  · rw [if_neg h1]
    have hq1 : ¬ q < 1 := fun hh => h1 (lt_of_le_of_lt hpq hh)
    rw [if_neg hq1]
    exact hpq

lemma easedProgress_nonneg (ease : ℚ → ℚ) (h : EaseOK ease) (p : ℚ)
    (hp : 0 ≤ p) (hp1 : p ≤ 1) : 0 ≤ easedProgress ease p := by
  unfold easedProgress
  by_cases h1 : p < 1
  · rw [if_pos h1]
    exact h.lower p hp hp1
  · rw [if_neg h1]
    exact hp

lemma progressB_mono (t u : ℚ) (htu : t ≤ u) : progressB t ≤ progressB u := by
  unfold progressB
  refine min_le_min ?_ (le_refl 1)
  apply div_le_div_of_nonneg_right (by linarith)
  simp only [startOffsetB, preambleEndB]
  norm_num

lemma progressB_nonneg (t : ℚ) (ht : startOffsetB ≤ t) : 0 ≤ progressB t := by
  unfold progressB
  refine le_min ?_ (by norm_num)
  simp only [startOffsetB, preambleEndB] at ht ⊢
  apply div_nonneg (by linarith) (by norm_num)

lemma progressB_le_one (t : ℚ) : progressB t ≤ 1 := min_le_right _ _

lemma mono_idxB (ease : ℚ → ℚ) (h : EaseOK ease) (t u : ℚ)
    (h1 : startOffsetB ≤ t) (h2 : t ≤ u) : idxB ease t ≤ idxB ease u := by
  unfold idxB mapIndex
  apply Int.floor_le_floor
  apply mul_le_mul_of_nonneg_right _ (by positivity)
  exact easedProgress_mono ease h _ _ (progressB_nonneg t h1) (progressB_mono t u h2)
    (progressB_le_one u)

lemma idxB_nonneg (ease : ℚ → ℚ) (h : EaseOK ease) (t : ℚ)
    (h1 : startOffsetB ≤ t) : 0 ≤ idxB ease t := by
  unfold idxB mapIndex
  apply Int.le_floor.mpr
  push_cast
  exact mul_nonneg (easedProgress_nonneg ease h _ (progressB_nonneg t h1)
    (progressB_le_one t)) (by positivity)

/-! ## The variant-B update as branch equations -/

lemma updateB_pre (ease : ℚ → ℚ) (t : ℚ) (s : AppState) (h : t < startOffsetB) :
    updateB ease t s = s := by
  unfold updateB
  rw [if_pos h]

lemma updateB_post (ease : ℚ → ℚ) (t : ℚ) (s : AppState)
    (h1 : ¬ t < startOffsetB) (h2 : preambleEndB < t) :
    updateB ease t s =
      { s with currentIndex := (wordsB.length : Int) - 1
             , loopRunning := false
             , commands := s.commands ++ [Cmd.pause] } := by
  unfold updateB
  rw [if_neg h1, if_pos h2]

lemma updateB_mid_apply (ease : ℚ → ℚ) (t : ℚ) (s : AppState)
    (h1 : ¬ t < startOffsetB) (h2 : ¬ preambleEndB < t)
    (hg : idxB ease t ≠ s.lastIndex ∧ 0 ≤ idxB ease t ∧ idxB ease t < (wordsB.length : Int)) :
    updateB ease t s =
      countBlockGen (fun w => (computeCounts w).startsT) (fun w => (computeCounts w).endsE)
        (idxB ease t) (normalizeWord (wordsB.getD (idxB ease t).toNat ""))
        { s with lastIndex := idxB ease t, currentIndex := idxB ease t } := by
  unfold updateB
  rw [if_neg h1, if_neg h2, if_pos hg]

lemma updateB_mid_skip (ease : ℚ → ℚ) (t : ℚ) (s : AppState)
    (h1 : ¬ t < startOffsetB) (h2 : ¬ preambleEndB < t)
    (hg : ¬ (idxB ease t ≠ s.lastIndex ∧ 0 ≤ idxB ease t ∧
      idxB ease t < (wordsB.length : Int))) :
    updateB ease t s = s := by
  unfold updateB
  rw [if_neg h1, if_neg h2, if_neg hg]

/-- Under non-decreasing transport times, the variant-B loop applies a
non-decreasing sequence of indices. -/
lemma runB_mono_aux (ease : ℚ → ℚ) (h : EaseOK ease) :
    ∀ ts : List ℚ, List.Sorted (· ≤ ·) ts → ∀ s : AppState,
      (s.loopRunning = true → s.currentIndex = s.lastIndex) →
      s.currentIndex ≤ (wordsB.length : Int) - 1 →
      (∀ t ∈ ts, startOffsetB ≤ t → t ≤ preambleEndB → s.lastIndex ≤ idxB ease t) →
      List.Chain' (· ≤ ·) (s.currentIndex :: idxTraceB ease s ts) := by
  intro ts
  induction ts with
  | nil =>
      intro _ s _ _ _
      exact List.chain'_singleton _
  | cons t ts ih =>
      intro hsort s hgood hbound hcompat
      rcases List.sorted_cons.mp hsort with ⟨hts, hsort'⟩
      simp only [idxTraceB]
      by_cases hr : s.loopRunning = true
      · by_cases h1 : t < startOffsetB
        · have htk : tickB ease t s = s := by
            unfold tickB
            rw [if_pos hr]
            exact updateB_pre ease t s h1
          rw [htk]
          exact List.chain'_cons.mpr ⟨le_refl _,
            ih hsort' s hgood hbound (fun u hu => hcompat u (List.mem_cons_of_mem _ hu))⟩
        by_cases h2 : preambleEndB < t
        · have htk : tickB ease t s =
              { s with currentIndex := (wordsB.length : Int) - 1
                     , loopRunning := false
                     , commands := s.commands ++ [Cmd.pause] } := by
            unfold tickB
            rw [if_pos hr]
            exact updateB_post ease t s h1 h2
          rw [htk]
          refine List.chain'_cons.mpr ⟨hbound, ?_⟩
          refine ih hsort' _ (fun hc => Bool.noConfusion hc) (le_refl _) ?_
          intro u hu h1u h2u
          exact hcompat u (List.mem_cons_of_mem _ hu) h1u h2u
        have h1' : startOffsetB ≤ t := le_of_not_lt h1
        have h2' : t ≤ preambleEndB := le_of_not_lt h2
        by_cases hg : idxB ease t ≠ s.lastIndex ∧ 0 ≤ idxB ease t ∧
            idxB ease t < (wordsB.length : Int)
        · have htk : tickB ease t s =
              countBlockGen (fun w => (computeCounts w).startsT)
                (fun w => (computeCounts w).endsE)
                (idxB ease t) (normalizeWord (wordsB.getD (idxB ease t).toNat ""))
                { s with lastIndex := idxB ease t, currentIndex := idxB ease t } := by
            unfold tickB
            rw [if_pos hr]
            exact updateB_mid_apply ease t s h1 h2 hg
          rw [htk]
          rcases countBlockGen_proj (fun w => (computeCounts w).startsT)
            (fun w => (computeCounts w).endsE)
            (idxB ease t) (normalizeWord (wordsB.getD (idxB ease t).toNat ""))
            { s with lastIndex := idxB ease t, currentIndex := idxB ease t } with
            ⟨hci, hli, hlr, -, -, -, -, -, -⟩
          refine List.chain'_cons.mpr ⟨?_, ?_⟩
          · rw [hci]
            show s.currentIndex ≤ idxB ease t
            rw [hgood hr]
            exact hcompat t (List.mem_cons_self t ts) h1' h2'
          · refine ih hsort' _ (fun _ => by rw [hci, hli]) ?_ ?_
            · rw [hci]
              show idxB ease t ≤ (wordsB.length : Int) - 1
              omega
            · intro u hu h1u h2u
              rw [hli]
              show idxB ease t ≤ idxB ease u
              exact mono_idxB ease h t u h1' (hts u hu)
        · have htk : tickB ease t s = s := by
            unfold tickB
            rw [if_pos hr]
            exact updateB_mid_skip ease t s h1 h2 hg
          rw [htk]
          exact List.chain'_cons.mpr ⟨le_refl _,
            ih hsort' s hgood hbound (fun u hu => hcompat u (List.mem_cons_of_mem _ hu))⟩
      · have htk : tickB ease t s = s := by
          unfold tickB
          rw [if_neg hr]
        rw [htk]
        exact List.chain'_cons.mpr ⟨le_refl _,
          ih hsort' s hgood hbound (fun u hu => hcompat u (List.mem_cons_of_mem _ hu))⟩

/-! The amended claim C2 itself covers both variants; its theorem is stated
after the variant-A machinery, at the end of the file. -/

/-! ## Claim C9 -/

/-- Expected value of the starts-with counter after the first `k` words. -/
def startsTSpec (ws : List String) (k : ℕ) : ℕ :=
  ((ws.take k).filter (fun w => (computeCounts (normalizeWord w)).startsT)).length

def endsESpec (ws : List String) (k : ℕ) : ℕ :=
  ((ws.take k).filter (fun w => (computeCounts (normalizeWord w)).endsE)).length

def bothSpec (ws : List String) (k : ℕ) : ℕ :=
  ((ws.take k).filter (fun w => (computeCounts (normalizeWord w)).both)).length

lemma spec_take_succ (p : String → Bool) (ws : List String) (k : ℕ) (hk : k < ws.length) :
    ((ws.take (k + 1)).filter p).length
      = ((ws.take k).filter p).length + (if p (ws.getD k "") then 1 else 0) := by
  have hgd : ws.getD k "" = ws[k] := by
    rw [List.getD_eq_getElem?_getD, List.getElem?_eq_getElem hk]
    rfl
  rw [List.take_succ, List.getElem?_eq_getElem hk]
  rw [List.filter_append, List.length_append, hgd]
  congr 1
  show (List.filter p [ws[k]]).length = _
  by_cases hp : p ws[k] = true
  · rw [if_pos hp]
    simp [List.filter, hp]
  · rw [if_neg hp]
    simp only [List.filter]
    rw [Bool.eq_false_iff.mpr hp]
    rfl

lemma manualStepB_advance (ws : List String) (s : AppState)
    (hm : s.isManualMode = true) (hl : s.loopRunning = false)
    (hidx : s.manualIndex < (ws.length : Int) - 1) :
    (manualStepB ws s).manualIndex = s.manualIndex + 1 ∧
    (manualStepB ws s).isManualMode = true ∧
    (manualStepB ws s).loopRunning = false ∧
    (manualStepB ws s).startsWithT = s.startsWithT +
      (if (computeCounts (normalizeWord (ws.getD (s.manualIndex + 1).toNat ""))).startsT
        then 1 else 0) ∧
    (manualStepB ws s).endsWithE = s.endsWithE +
      (if (computeCounts (normalizeWord (ws.getD (s.manualIndex + 1).toNat ""))).endsE
        then 1 else 0) ∧
    (manualStepB ws s).doesBoth = s.doesBoth +
      (if (computeCounts (normalizeWord (ws.getD (s.manualIndex + 1).toNat ""))).both
        then 1 else 0) := by
  simp only [manualStepB]
  have hc1 : ¬ ((!s.isManualMode || s.loopRunning) = true) := by
    rw [hm, hl]
    decide
  have hc2 : ¬ ((ws.length : Int) - 1 ≤ s.manualIndex) := not_le.mpr hidx
  have hc3 : s.manualIndex + 1 < (ws.length : Int) := by omega
  rw [if_neg hc1, if_neg hc2, if_pos hc3]
  cases hb1 : (computeCounts (normalizeWord (ws.getD (s.manualIndex + 1).toNat ""))).startsT <;>
    cases hb2 : (computeCounts (normalizeWord (ws.getD (s.manualIndex + 1).toNat ""))).endsE <;>
      cases hb3 : (computeCounts (normalizeWord (ws.getD (s.manualIndex + 1).toNat ""))).both <;>
        simp [hb1, hb2, hb3, hm, hl]

lemma manualStepB_stop (ws : List String) (s : AppState)
    (hm : s.isManualMode = true) (hl : s.loopRunning = false)
    (hidx : (ws.length : Int) - 1 ≤ s.manualIndex) :
    manualStepB ws s = { s with isManualMode := false } := by
  unfold manualStepB
  rw [if_neg (by rw [hm, hl]; decide), if_pos hidx]

lemma manualStepB_idle (ws : List String) (s : AppState) (hm : s.isManualMode = false) :
    manualStepB ws s = s := by
  unfold manualStepB
  rw [if_pos (by rw [hm]; simp)]

lemma manual_iterate (ws : List String) :
    ∀ k : ℕ, k ≤ ws.length →
      ((manualStepB ws)^[k] manualStartState).manualIndex = (k : Int) - 1 ∧
      ((manualStepB ws)^[k] manualStartState).isManualMode = true ∧
      ((manualStepB ws)^[k] manualStartState).loopRunning = false ∧
      ((manualStepB ws)^[k] manualStartState).startsWithT = startsTSpec ws k ∧
      ((manualStepB ws)^[k] manualStartState).endsWithE = endsESpec ws k ∧
      ((manualStepB ws)^[k] manualStartState).doesBoth = bothSpec ws k := by
  intro k
  induction k with
  | zero =>
      intro _
      exact ⟨rfl, rfl, rfl, rfl, rfl, rfl⟩
  | succ k ih =>
      intro hk
      have hklt : k < ws.length := Nat.lt_of_succ_le hk
      rcases ih (Nat.le_of_succ_le hk) with ⟨e1, e2, e3, e4, e5, e6⟩
      rw [Function.iterate_succ_apply']
      have hidx : ((manualStepB ws)^[k] manualStartState).manualIndex
          < (ws.length : Int) - 1 := by
        rw [e1]
        omega
      rcases manualStepB_advance ws _ e2 e3 hidx with ⟨a1, a2, a3, a4, a5, a6⟩
      have htn : (((manualStepB ws)^[k] manualStartState).manualIndex + 1).toNat = k := by
        rw [e1]
        omega
      refine ⟨?_, a2, a3, ?_, ?_, ?_⟩
      · rw [a1, e1]
        push_cast
        ring
      · rw [a4, e4, htn]
        unfold startsTSpec
        exact (spec_take_succ _ ws k hklt).symm
      · rw [a5, e5, htn]
        unfold endsESpec
        exact (spec_take_succ _ ws k hklt).symm
      · rw [a6, e6, htn]
        unfold bothSpec
        exact (spec_take_succ _ ws k hklt).symm

/-- Claim C9: in manual mode, starting from `manualIndex = -1`, every
scheduler round below the last word advances the index by exactly 1 and
counts the newly active word; after `tokenCount` rounds the index is
`tokenCount - 1` with all words counted, the round after that switches
manual mode off without advancing or counting, and once the mode is off a
round is a no-op (no further tick fires). -/
theorem c9_manual_mode (ws : List String) (hws : 1 ≤ ws.length) :
    (∀ s : AppState, s.isManualMode = true → s.loopRunning = false →
        s.manualIndex < (ws.length : Int) - 1 →
        (manualStepB ws s).manualIndex = s.manualIndex + 1) ∧
    (((manualStepB ws)^[ws.length] manualStartState).manualIndex = (ws.length : Int) - 1 ∧
      ((manualStepB ws)^[ws.length] manualStartState).isManualMode = true ∧
      ((manualStepB ws)^[ws.length] manualStartState).startsWithT = startsTSpec ws ws.length ∧
      ((manualStepB ws)^[ws.length] manualStartState).endsWithE = endsESpec ws ws.length ∧
      ((manualStepB ws)^[ws.length] manualStartState).doesBoth = bothSpec ws ws.length) ∧
    (((manualStepB ws)^[ws.length + 1] manualStartState).isManualMode = false ∧
      ((manualStepB ws)^[ws.length + 1] manualStartState).manualIndex
        = (ws.length : Int) - 1 ∧
      ((manualStepB ws)^[ws.length + 1] manualStartState).doesBoth
        = bothSpec ws ws.length) ∧
    (∀ s : AppState, s.isManualMode = false → manualStepB ws s = s) := by
  rcases manual_iterate ws ws.length (le_refl _) with ⟨e1, e2, e3, e4, e5, e6⟩
  refine ⟨?_, ⟨e1, e2, e4, e5, e6⟩, ?_, manualStepB_idle ws⟩
  · intro s hm hl hidx
    exact (manualStepB_advance ws s hm hl hidx).1
  · rw [Function.iterate_succ_apply']
    rw [manualStepB_stop ws _ e2 e3 (by rw [e1])]
    exact ⟨rfl, e1, e6⟩

/-- The spec's five-token scenario: token 2 starts with t and ends with e. -/
def wsScenario : List String := ["We", "People", "the", "of", "Union"]

theorem c9_manual_mode_witness :
    1 ≤ wsScenario.length ∧
      (((manualStepB wsScenario)^[wsScenario.length + 1] manualStartState).isManualMode
          = false ∧
        ((manualStepB wsScenario)^[wsScenario.length + 1] manualStartState).manualIndex
          = (wsScenario.length : Int) - 1 ∧
        ((manualStepB wsScenario)^[wsScenario.length + 1] manualStartState).doesBoth
          = bothSpec wsScenario wsScenario.length) ∧
      bothSpec wsScenario wsScenario.length = 1 ∧ (wsScenario.length : Int) - 1 = 4 :=
  ⟨by decide, (c9_manual_mode wsScenario (by decide)).2.2.1, by decide, by decide⟩

/-! ## Claim C3 -/

/-- State right after the Tranquility trigger fires at transport time 77. -/
def trigState : AppState :=
  { startA with hasPausedAtTranquility := true
              , isPausedAtTranquility := true
              , pauseStartTime := some 77
              , lastIndex := 15
              , currentIndex := 15
              , commands := startA.commands ++ [Cmd.pause] }

lemma tickA_77_startA : stepA easeSq (EventA.tick 77) startA = trigState := by
  have hidx : idxA easeSq 77 = 15 := by
    unfold idxA mapIndex easedProgress progressA startOffsetA preambleEndA easeSq
    rw [wordsA_len]
    norm_num
  simp only [stepA]
  rw [if_pos (show startA.loopRunning = true from rfl)]
  unfold updateA
  rw [if_neg (by norm_num [startOffsetA]), if_neg (by norm_num [preambleEndA]), hidx]
  rw [if_neg (by decide), if_pos (by decide)]
  rfl

/-- State after the one-shot resume timer has fired: pause flag cleared,
`lastIndexRef` re-pinned to the keyword index, latch still set. -/
def resumedState : AppState :=
  { trigState with commands := (trigState.commands ++ [Cmd.seek (77 + 3/10)]) ++ [Cmd.play]
                 , lastIndex := 15
                 , isPausedAtTranquility := false
                 , pauseStartTime := none }

lemma resume_trigState : stepA easeSq (EventA.resume 0) trigState = resumedState := rfl

lemma scPaused_trigState :
    stepA easeSq (EventA.stateChange PlayerEvent.paused) trigState = trigState := rfl

lemma scPlaying_resumedState :
    stepA easeSq (EventA.stateChange PlayerEvent.playing) resumedState = resumedState := rfl

lemma scPaused_resumedState :
    stepA easeSq (EventA.stateChange PlayerEvent.paused) resumedState = resumedState := rfl

/-- Claim C3 (code bug): before any keyword pause an externally-initiated
PAUSED event stops the loop, but after the keyword pause has fired and
resumed, the one-shot latch `hasPausedAtTranquilityRef` is still set, so an
externally-initiated PAUSED event no longer stops the loop — the claimed
"stops iff not self-initiated" fails at every point after the trigger. -/
theorem c3_external_pause_ignored_after_resume :
    (onStateChangeA PlayerEvent.paused startA).loopRunning = false ∧
    ((runA easeSq startA
        [EventA.tick 77, EventA.stateChange PlayerEvent.paused, EventA.resume 0,
         EventA.stateChange PlayerEvent.playing,
         EventA.stateChange PlayerEvent.paused]).loopRunning = true ∧
      (runA easeSq startA
        [EventA.tick 77, EventA.stateChange PlayerEvent.paused, EventA.resume 0,
         EventA.stateChange PlayerEvent.playing,
         EventA.stateChange PlayerEvent.paused]).isPausedAtTranquility = false ∧
      (runA easeSq startA
        [EventA.tick 77, EventA.stateChange PlayerEvent.paused, EventA.resume 0,
         EventA.stateChange PlayerEvent.playing,
         EventA.stateChange PlayerEvent.paused]).hasPausedAtTranquility = true) := by
  have hrun : runA easeSq startA
      [EventA.tick 77, EventA.stateChange PlayerEvent.paused, EventA.resume 0,
       EventA.stateChange PlayerEvent.playing,
       EventA.stateChange PlayerEvent.paused] = resumedState := by
    show stepA easeSq (EventA.stateChange PlayerEvent.paused)
        (stepA easeSq (EventA.stateChange PlayerEvent.playing)
          (stepA easeSq (EventA.resume 0)
            (stepA easeSq (EventA.stateChange PlayerEvent.paused)
              (stepA easeSq (EventA.tick 77) startA)))) = resumedState
    rw [tickA_77_startA, scPaused_trigState, resume_trigState, scPlaying_resumedState,
      scPaused_resumedState]
  rw [hrun]
  exact ⟨rfl, rfl, rfl, rfl⟩

/-! ## Claim C10 -/

/-- After the resumed keyword episode, a backward seek lands on index 10
("Union,"), which is applied and counted. -/
def countedUnionState : AppState :=
  { resumedState with lastIndex := 10
                    , currentIndex := 10
                    , counted := [((10 : Int), "union")] }

lemma tickA_74_resumedState :
    stepA easeSq (EventA.tick 74) resumedState = countedUnionState := by
  have hidx : idxA easeSq 74 = 10 := by
    unfold idxA mapIndex easedProgress progressA startOffsetA preambleEndA easeSq
    rw [wordsA_len]
    norm_num
  simp only [stepA]
  rw [if_pos (show resumedState.loopRunning = true from rfl)]
  unfold updateA
  rw [if_neg (by norm_num [startOffsetA]), if_neg (by norm_num [preambleEndA]), hidx]
  rw [if_neg (by decide), if_pos (by decide)]
  rfl

/-- Seeking forward again onto the keyword's index: the latch suppresses the
pause path, so the normal counting path runs and records the keyword. -/
def countedTranqState : AppState :=
  { countedUnionState with lastIndex := 15
                         , currentIndex := 15
                         , counted := [((15 : Int), "tranquility"), ((10 : Int), "union")]
                         , startsWithT := 1 }

lemma tickA_77_countedUnionState :
    stepA easeSq (EventA.tick 77) countedUnionState = countedTranqState := by
  have hidx : idxA easeSq 77 = 15 := by
    unfold idxA mapIndex easedProgress progressA startOffsetA preambleEndA easeSq
    rw [wordsA_len]
    norm_num
  simp only [stepA]
  rw [if_pos (show countedUnionState.loopRunning = true from rfl)]
  unfold updateA
  rw [if_neg (by norm_num [startOffsetA]), if_neg (by norm_num [preambleEndA]), hidx]
  rw [if_neg (by decide), if_pos (by decide)]
  rfl

/-- Claim C10 counterexample: in a variant-A run where, after the keyword
pause and resume, the user seeks backward (tick at 74, mapping to index 10)
and then the mapper lands on the keyword's index 15 again, the keyword's own
index IS entered into the dedup ledger and its starts-with-t bit IS added to
the counter. -/
theorem c10_counterexample :
    ((15 : Int), "tranquility") ∈ (runA easeSq startA
        [EventA.tick 77, EventA.stateChange PlayerEvent.paused, EventA.resume 0,
         EventA.stateChange PlayerEvent.playing, EventA.tick 74,
         EventA.tick 77]).counted ∧
    (runA easeSq startA
        [EventA.tick 77, EventA.stateChange PlayerEvent.paused, EventA.resume 0,
         EventA.stateChange PlayerEvent.playing, EventA.tick 74,
         EventA.tick 77]).startsWithT = 1 ∧
    (runA easeSq startA
        [EventA.tick 77, EventA.stateChange PlayerEvent.paused, EventA.resume 0,
         EventA.stateChange PlayerEvent.playing, EventA.tick 74,
         EventA.tick 77]).counted
      = [((15 : Int), "tranquility"), ((10 : Int), "union")] := by
  have hrun : runA easeSq startA
      [EventA.tick 77, EventA.stateChange PlayerEvent.paused, EventA.resume 0,
       EventA.stateChange PlayerEvent.playing, EventA.tick 74,
       EventA.tick 77] = countedTranqState := by
    show stepA easeSq (EventA.tick 77)
        (stepA easeSq (EventA.tick 74)
          (stepA easeSq (EventA.stateChange PlayerEvent.playing)
            (stepA easeSq (EventA.resume 0)
              (stepA easeSq (EventA.stateChange PlayerEvent.paused)
                (stepA easeSq (EventA.tick 77) startA))))) = countedTranqState
    rw [tickA_77_startA, scPaused_trigState, resume_trigState, scPlaying_resumedState,
      tickA_74_resumedState, tickA_77_countedUnionState]
  rw [hrun]
  exact ⟨by decide, rfl, rfl⟩

lemma progressA_mono (t u : ℚ) (htu : t ≤ u) : progressA t ≤ progressA u := by
  unfold progressA
  refine min_le_min ?_ (le_refl 1)
  apply div_le_div_of_nonneg_right (by linarith)
  simp only [startOffsetA, preambleEndA]
  norm_num

lemma progressA_nonneg (t : ℚ) (ht : startOffsetA ≤ t) : 0 ≤ progressA t := by
  unfold progressA
  refine le_min ?_ (by norm_num)
  simp only [startOffsetA, preambleEndA] at ht ⊢
  apply div_nonneg (by linarith) (by norm_num)

lemma progressA_le_one (t : ℚ) : progressA t ≤ 1 := min_le_right _ _

lemma mono_idxA (ease : ℚ → ℚ) (h : EaseOK ease) (t u : ℚ)
    (h1 : startOffsetA ≤ t) (h2 : t ≤ u) : idxA ease t ≤ idxA ease u := by
  unfold idxA mapIndex
  apply Int.floor_le_floor
  apply mul_le_mul_of_nonneg_right _ (by positivity)
  exact easedProgress_mono ease h _ _ (progressA_nonneg t h1) (progressA_mono t u h2)
    (progressA_le_one u)

lemma idxA_nonneg (ease : ℚ → ℚ) (h : EaseOK ease) (t : ℚ)
    (h1 : startOffsetA ≤ t) : 0 ≤ idxA ease t := by
  unfold idxA mapIndex
  apply Int.le_floor.mpr
  push_cast
  exact mul_nonneg (easedProgress_nonneg ease h _ (progressA_nonneg t h1)
    (progressA_le_one t)) (by positivity)

/-- "Tranquility" occurs at index 15 and nowhere else in the passage. -/
lemma tranq_unique :
    ∀ n : ℕ, n < 48 → (normalizeWord (wordsA.getD n "") = "tranquility" ↔ n = 15) := by
  decide

/-! ## Variant-A update as branch equations -/

lemma updateA_pre (ease : ℚ → ℚ) (t : ℚ) (s : AppState) (h : t < startOffsetA) :
    updateA ease t s = s := by
  unfold updateA
  rw [if_pos h]

lemma updateA_post (ease : ℚ → ℚ) (t : ℚ) (s : AppState)
    (h1 : ¬ t < startOffsetA) (h2 : preambleEndA < t) :
    updateA ease t s = { s with currentIndex := (wordsA.length : Int) - 1 } := by
  unfold updateA
  rw [if_neg h1, if_pos h2]

lemma updateA_pin (ease : ℚ → ℚ) (t : ℚ) (s : AppState)
    (h1 : ¬ t < startOffsetA) (h2 : ¬ preambleEndA < t)
    (hp : s.isPausedAtTranquility = true) :
    updateA ease t s = { s with currentIndex := 15 } := by
  unfold updateA
  rw [if_neg h1, if_neg h2, if_pos hp, if_pos (by decide), tranquilityIndex_wordsA]

lemma updateA_mid_apply (ease : ℚ → ℚ) (t : ℚ) (s : AppState)
    (h1 : ¬ t < startOffsetA) (h2 : ¬ preambleEndA < t)
    (hp : ¬ s.isPausedAtTranquility = true)
    (hg : idxA ease t ≠ s.lastIndex ∧ 0 ≤ idxA ease t ∧ idxA ease t < (wordsA.length : Int)) :
    updateA ease t s = applyIndexA (idxA ease t) t s := by
  unfold updateA
  rw [if_neg h1, if_neg h2, if_neg hp, if_pos hg]

lemma updateA_mid_skip (ease : ℚ → ℚ) (t : ℚ) (s : AppState)
    (h1 : ¬ t < startOffsetA) (h2 : ¬ preambleEndA < t)
    (hp : ¬ s.isPausedAtTranquility = true)
    (hg : ¬ (idxA ease t ≠ s.lastIndex ∧ 0 ≤ idxA ease t ∧
      idxA ease t < (wordsA.length : Int))) :
    updateA ease t s = s := by
  unfold updateA
  rw [if_neg h1, if_neg h2, if_neg hp, if_neg hg]

/-- `applyIndexA` either takes the trigger path (no counting) or the normal
apply-and-count path. -/
lemma applyIndexA_cases (i : Int) (t : ℚ) (s : AppState) :
    (normalizeWord (wordsA.getD i.toNat "") = "tranquility" ∧
      s.hasPausedAtTranquility = false ∧
      applyIndexA i t s =
        { s with hasPausedAtTranquility := true
               , isPausedAtTranquility := true
               , pauseStartTime := some t
               , lastIndex := i
               , currentIndex := i
               , commands := s.commands ++ [Cmd.pause] }) ∨
    (¬ (normalizeWord (wordsA.getD i.toNat "") = "tranquility" ∧
        s.hasPausedAtTranquility = false) ∧
      applyIndexA i t s =
        countBlockGen (fun w => strStartsWith w 't') (fun w => strEndsWith w 'e') i
          (cleanSliceA (wordsA.getD i.toNat ""))
          { s with lastIndex := i, currentIndex := i }) := by
  by_cases h : removePunct (toLowerStr (wordsA.getD i.toNat "")) = "tranquility" ∧
      s.hasPausedAtTranquility = false
  · refine Or.inl ⟨h.1, h.2, ?_⟩
    simp only [applyIndexA]
    rw [if_pos h]
  · refine Or.inr ⟨h, ?_⟩
    simp only [applyIndexA]
    rw [if_neg h]
    rfl

/-- `resumeFireA` clears the pause flag, re-pins `lastIndexRef` to the
keyword's index, and touches neither the ledger nor the latch. -/
lemma resumeFireA_proj (f : ℚ) (s : AppState) :
    (resumeFireA f s).counted = s.counted ∧
    (resumeFireA f s).lastIndex = 15 ∧
    (resumeFireA f s).isPausedAtTranquility = false ∧
    (resumeFireA f s).hasPausedAtTranquility = s.hasPausedAtTranquility ∧
    (resumeFireA f s).loopRunning = s.loopRunning ∧
    (resumeFireA f s).startsWithT = s.startsWithT ∧
    (resumeFireA f s).endsWithE = s.endsWithE ∧
    (resumeFireA f s).doesBoth = s.doesBoth := by
  simp only [resumeFireA]
  rw [if_pos (show (0 : Int) ≤ tranquilityIndex wordsA by decide), tranquilityIndex_wordsA]
  exact ⟨rfl, rfl, trivial, rfl, rfl, rfl, rfl, rfl⟩

/-- Well-formed variant-A runs: tick times are non-decreasing (the first
index carries the lower bound for all later tick times) and the resume timer
fires only while the keyword pause is in effect — as in the source, where
the timeout is armed only by the trigger and fires during the pause. -/
inductive WFRunA (ease : ℚ → ℚ) : ℚ → AppState → List EventA → Prop where
  | nil : ∀ (tlb : ℚ) (s : AppState), WFRunA ease tlb s []
  | tick : ∀ (tlb : ℚ) (s : AppState) (t : ℚ) (es : List EventA), tlb ≤ t →
      WFRunA ease t (stepA ease (EventA.tick t) s) es →
      WFRunA ease tlb s (EventA.tick t :: es)
  | res : ∀ (tlb : ℚ) (s : AppState) (f : ℚ) (es : List EventA),
      s.isPausedAtTranquility = true →
      WFRunA ease tlb (stepA ease (EventA.resume f) s) es →
      WFRunA ease tlb s (EventA.resume f :: es)
  | sc : ∀ (tlb : ℚ) (s : AppState) (e : PlayerEvent) (es : List EventA),
      WFRunA ease tlb (stepA ease (EventA.stateChange e) s) es →
      WFRunA ease tlb s (EventA.stateChange e :: es)

/-- The run invariant protecting the keyword's index: it is not in the
ledger, the pause pin and the latch keep `lastIndexRef` at or beyond the
keyword's index, and every future in-segment tick maps at or beyond the last
applied index. -/
def KeywordSafe (ease : ℚ → ℚ) (tlb : ℚ) (s : AppState) : Prop :=
  (∀ w : String, ((15 : Int), w) ∉ s.counted) ∧
  (s.isPausedAtTranquility = true → s.lastIndex = 15) ∧
  (s.hasPausedAtTranquility = true → (15 : Int) ≤ s.lastIndex) ∧
  (∀ t : ℚ, tlb ≤ t → startOffsetA ≤ t → t ≤ preambleEndA → s.lastIndex ≤ idxA ease t)

lemma keywordSafe_tick (ease : ℚ → ℚ) (h : EaseOK ease) (tlb t : ℚ) (s : AppState)
    (hle : tlb ≤ t) (hs : KeywordSafe ease tlb s) :
    KeywordSafe ease t (stepA ease (EventA.tick t) s) := by
  rcases hs with ⟨k1, k2, k3, k4⟩
  have hcl15 : normalizeWord (wordsA.getD ((15 : Int)).toNat "") = "tranquility" := by decide
  by_cases hr : s.loopRunning = true
  case neg =>
    have hstep : stepA ease (EventA.tick t) s = s := by
      simp only [stepA]
      rw [if_neg hr]
    rw [hstep]
    exact ⟨k1, k2, k3, fun u hu => k4 u (le_trans hle hu)⟩
  case pos =>
    have hstep : stepA ease (EventA.tick t) s = updateA ease t s := by
      simp only [stepA]
      rw [if_pos hr]
    rw [hstep]
    by_cases h1 : t < startOffsetA
    · rw [updateA_pre ease t s h1]
      exact ⟨k1, k2, k3, fun u hu => k4 u (le_trans hle hu)⟩
    by_cases h2 : preambleEndA < t
    · rw [updateA_post ease t s h1 h2]
      exact ⟨k1, k2, k3, fun u hu => k4 u (le_trans hle hu)⟩
    by_cases hp : s.isPausedAtTranquility = true
    · rw [updateA_pin ease t s h1 h2 hp]
      exact ⟨k1, k2, k3, fun u hu => k4 u (le_trans hle hu)⟩
    have h1' : startOffsetA ≤ t := le_of_not_lt h1
    have h2' : t ≤ preambleEndA := le_of_not_lt h2
    by_cases hg : idxA ease t ≠ s.lastIndex ∧ 0 ≤ idxA ease t ∧
        idxA ease t < (wordsA.length : Int)
    case neg =>
      rw [updateA_mid_skip ease t s h1 h2 hp hg]
      exact ⟨k1, k2, k3, fun u hu => k4 u (le_trans hle hu)⟩
    case pos =>
      rw [updateA_mid_apply ease t s h1 h2 hp hg]
      have hb0 : (0 : Int) ≤ idxA ease t := hg.2.1
      have hb1 : idxA ease t < 48 := by
        have := hg.2.2
        rw [wordsA_len] at this
        exact_mod_cast this
      rcases applyIndexA_cases (idxA ease t) t s with ⟨hcw, -, heq⟩ | ⟨hcond, heq⟩
      · have hnat : (idxA ease t).toNat < 48 := by omega
        have h15 : idxA ease t = 15 := by
          have := (tranq_unique (idxA ease t).toNat hnat).mp hcw
          omega
        rw [heq]
        refine ⟨k1, fun _ => ?_, fun _ => ?_, fun u hu h1u h2u => ?_⟩
        · exact h15
        · show (15 : Int) ≤ idxA ease t
          omega
        · show idxA ease t ≤ idxA ease u
          exact mono_idxA ease h t u h1' hu
      · have hne15 : idxA ease t ≠ 15 := by
          intro h15
          cases hb : s.hasPausedAtTranquility with
          | false =>
              exact hcond ⟨by rw [h15]; exact hcl15, hb⟩
          | true =>
              have hge := k3 hb
              have hle2 := k4 t hle h1' h2'
              rw [h15] at hle2
              exact hg.1 (by omega)
        rw [heq]
        rcases countBlockGen_proj (fun w => strStartsWith w 't') (fun w => strEndsWith w 'e')
          (idxA ease t) (cleanSliceA (wordsA.getD (idxA ease t).toNat ""))
          { s with lastIndex := idxA ease t, currentIndex := idxA ease t } with
          ⟨-, hli, -, -, -, hpau, -, hlat, -⟩
        rcases countBlockGen_counted (fun w => strStartsWith w 't') (fun w => strEndsWith w 'e')
          (idxA ease t) (cleanSliceA (wordsA.getD (idxA ease t).toNat ""))
          { s with lastIndex := idxA ease t, currentIndex := idxA ease t } with hcc | hcc
        · refine ⟨?_, ?_, ?_, ?_⟩
          · intro w hw
            rw [hcc] at hw
            exact k1 w hw
          · intro hx
            rw [hpau] at hx
            exact absurd hx hp
          · intro hx
            rw [hlat] at hx
            have hlb := k4 t hle h1' h2'
            have := k3 hx
            rw [hli]
            show (15 : Int) ≤ idxA ease t
            omega
          · intro u hu h1u h2u
            rw [hli]
            show idxA ease t ≤ idxA ease u
            exact mono_idxA ease h t u h1' hu
        · refine ⟨?_, ?_, ?_, ?_⟩
          · intro w hw
            rw [hcc] at hw
            rcases List.mem_cons.mp hw with he | hm
            · have : (15 : Int) = idxA ease t := congrArg Prod.fst he
              exact hne15 this.symm
            · exact k1 w hm
          · intro hx
            rw [hpau] at hx
            exact absurd hx hp
          · intro hx
            rw [hlat] at hx
            have hlb := k4 t hle h1' h2'
            have := k3 hx
            rw [hli]
            show (15 : Int) ≤ idxA ease t
            omega
          · intro u hu h1u h2u
            rw [hli]
            show idxA ease t ≤ idxA ease u
            exact mono_idxA ease h t u h1' hu

lemma keywordSafe_resume (ease : ℚ → ℚ) (tlb f : ℚ) (s : AppState)
    (hp : s.isPausedAtTranquility = true) (hs : KeywordSafe ease tlb s) :
    KeywordSafe ease tlb (stepA ease (EventA.resume f) s) := by
  rcases hs with ⟨k1, k2, k3, k4⟩
  rcases resumeFireA_proj f s with ⟨p1, p2, p3, p4, -, -, -, -⟩
  have hstep : stepA ease (EventA.resume f) s = resumeFireA f s := rfl
  have hli : s.lastIndex = 15 := k2 hp
  rw [hstep]
  refine ⟨?_, ?_, ?_, ?_⟩
  · intro w hw
    rw [p1] at hw
    exact k1 w hw
  · intro _
    exact p2
  · intro _
    rw [p2]
  · intro u hu h1u h2u
    rw [p2, ← hli]
    exact k4 u hu h1u h2u

lemma keywordSafe_sc (ease : ℚ → ℚ) (tlb : ℚ) (e : PlayerEvent) (s : AppState)
    (hs : KeywordSafe ease tlb s) :
    KeywordSafe ease tlb (stepA ease (EventA.stateChange e) s) := by
  rcases hs with ⟨k1, k2, k3, k4⟩
  rcases onStateChangeA_proj e s with ⟨-, hl, hc, hli, hip, -⟩
  have hstep : stepA ease (EventA.stateChange e) s = onStateChangeA e s := rfl
  rw [hstep]
  refine ⟨?_, ?_, ?_, ?_⟩
  · intro w hw
    rw [hc] at hw
    exact k1 w hw
  · intro hx
    rw [hip] at hx
    rw [hli]
    exact k2 hx
  · intro hx
    rw [hl] at hx
    rw [hli]
    exact k3 hx
  · intro u hu h1u h2u
    rw [hli]
    exact k4 u hu h1u h2u

lemma runA_keywordSafe (ease : ℚ → ℚ) (h : EaseOK ease) :
    ∀ (es : List EventA) (tlb : ℚ) (s : AppState), WFRunA ease tlb s es →
      KeywordSafe ease tlb s →
      ∀ w : String, ((15 : Int), w) ∉ (runA ease s es).counted := by
  intro es
  induction es with
  | nil =>
      intro tlb s _ hs w
      exact hs.1 w
  | cons e es ih =>
      intro tlb s hwf hs w
      cases hwf with
      | tick _ _ t _ hle hwf' =>
          exact ih t _ hwf' (keywordSafe_tick ease h tlb t s hle hs) w
      | res _ _ f _ hp hwf' =>
          exact ih tlb _ hwf' (keywordSafe_resume ease tlb f s hp hs) w
      | sc _ _ e' _ hwf' =>
          exact ih tlb _ hwf' (keywordSafe_sc ease tlb e' s hs) w

/-- Claim C10 amended: in every well-formed variant-A video-synced run whose
transport time readings are non-decreasing (no backward seek; the resume
timer fires during the keyword pause, as armed), the keyword token's own
index is never entered into the dedup ledger — hence its classification bits
are never added to the counters.  The counterexample shows a backward seek
after the resume defeats this. -/
theorem c10_amended (ease : ℚ → ℚ) (h : EaseOK ease) (tlb : ℚ) (es : List EventA)
    (hwf : WFRunA ease tlb startA es) :
    ∀ w : String, ((15 : Int), w) ∉ (runA ease startA es).counted := by
  apply runA_keywordSafe ease h es tlb startA hwf
  refine ⟨?_, ?_, ?_, ?_⟩
  · intro w hw
    exact List.not_mem_nil _ hw
  · intro hx
    exact Bool.noConfusion hx
  · intro hx
    exact Bool.noConfusion hx
  · intro u _ h1u _
    have := idxA_nonneg ease h u h1u
    show (-1 : Int) ≤ idxA ease u
    omega

theorem c10_amended_witness :
    EaseOK easeSq ∧ WFRunA easeSq 0 startA [EventA.tick 60, EventA.tick 77] ∧
      ∀ w : String, ((15 : Int), w)
        ∉ (runA easeSq startA [EventA.tick 60, EventA.tick 77]).counted :=
  ⟨easeOK_easeSq,
    WFRunA.tick 0 startA 60 [EventA.tick 77] (by norm_num)
      (WFRunA.tick 60 _ 77 [] (by norm_num) (WFRunA.nil 77 _)),
    c10_amended easeSq easeOK_easeSq 0 [EventA.tick 60, EventA.tick 77]
      (WFRunA.tick 0 startA 60 [EventA.tick 77] (by norm_num)
        (WFRunA.tick 60 _ 77 [] (by norm_num) (WFRunA.nil 77 _)))⟩

/-! ## Claim C2 (both variants) -/

/-- The sequence of `currentIndex` values after each event of a variant-A
run. -/
def idxTraceA (ease : ℚ → ℚ) : AppState → List EventA → List Int
  | _, [] => []
  | s, e :: es => (stepA ease e s).currentIndex :: idxTraceA ease (stepA ease e s) es

/-- `onStateChange` either leaves the state alone, only stops the loop, or
(on ENDED) stops the loop and pins the last word. -/
lemma onStateChangeA_cases (e : PlayerEvent) (s : AppState) :
    onStateChangeA e s = s ∨
    onStateChangeA e s = { s with loopRunning := false } ∨
    onStateChangeA e s =
      { s with loopRunning := false
             , currentIndex := (wordsA.length : Int) - 1 } := by
  cases e with
  | ended =>
      unfold onStateChangeA
      rw [if_pos rfl, if_neg (fun h => PlayerEvent.noConfusion h.1)]
      exact Or.inr (Or.inr rfl)
  | paused =>
      unfold onStateChangeA
      rw [if_neg (fun h => PlayerEvent.noConfusion h)]
      by_cases h2 : s.hasPausedAtTranquility = false
      · rw [if_pos ⟨rfl, h2⟩]
        exact Or.inr (Or.inl rfl)
      · rw [if_neg (fun hh => h2 hh.2)]
        exact Or.inl rfl
  | playing =>
      unfold onStateChangeA
      rw [if_neg (fun h => PlayerEvent.noConfusion h),
        if_neg (fun hh => PlayerEvent.noConfusion hh.1)]
      exact Or.inl rfl

/-- The resume timer does not touch the applied index. -/
lemma resumeFireA_keeps_index (f : ℚ) (s : AppState) :
    (resumeFireA f s).currentIndex = s.currentIndex := by
  simp only [resumeFireA]
  rw [if_pos (show (0 : Int) ≤ tranquilityIndex wordsA by decide)]

/-- The invariant giving monotonicity of the applied index in variant A:
the index is bounded by the last word's; while the keyword pause is in
effect the pin and `lastIndexRef` sit at the keyword's index (unless the
segment end has already passed, after which the index is pinned to the last
word); in normal running mode the applied index equals `lastIndexRef` (same
caveat); and every future in-segment tick maps at or beyond `lastIndexRef`. -/
def MonoInvA (ease : ℚ → ℚ) (tlb : ℚ) (s : AppState) : Prop :=
  s.currentIndex ≤ 47 ∧
  (s.loopRunning = true → s.isPausedAtTranquility = true →
    s.lastIndex = 15 ∧
      (s.currentIndex = 15 ∨ (preambleEndA < tlb ∧ s.currentIndex = 47))) ∧
  (s.loopRunning = true → s.isPausedAtTranquility = false →
    (s.currentIndex = s.lastIndex ∨ (preambleEndA < tlb ∧ s.currentIndex = 47))) ∧
  (s.loopRunning = true →
    ∀ t : ℚ, tlb ≤ t → startOffsetA ≤ t → t ≤ preambleEndA → s.lastIndex ≤ idxA ease t)

/-- The invariant is monotone in the time lower bound. -/
lemma monoInvA_mono_tlb (ease : ℚ → ℚ) (tlb tlb' : ℚ) (hle : tlb ≤ tlb') (s : AppState)
    (hs : MonoInvA ease tlb s) : MonoInvA ease tlb' s := by
  rcases hs with ⟨k1, k2, k3, k4⟩
  refine ⟨k1, ?_, ?_, ?_⟩
  · intro hr hp
    rcases k2 hr hp with ⟨hl, h15 | ⟨ht, h47⟩⟩
    · exact ⟨hl, Or.inl h15⟩
    · exact ⟨hl, Or.inr ⟨lt_of_lt_of_le ht hle, h47⟩⟩
  · intro hr hp
    rcases k3 hr hp with he | ⟨ht, h47⟩
    · exact Or.inl he
    · exact Or.inr ⟨lt_of_lt_of_le ht hle, h47⟩
  · intro hr t ht h1t h2t
    exact k4 hr t (le_trans hle ht) h1t h2t

/-- A tick at a time at or beyond the lower bound never decreases the
applied index, and preserves the invariant with the tick's time as the new
lower bound. -/
lemma monoInvA_tick (ease : ℚ → ℚ) (h : EaseOK ease) (tlb t : ℚ) (s : AppState)
    (hle : tlb ≤ t) (hs : MonoInvA ease tlb s) :
    s.currentIndex ≤ (stepA ease (EventA.tick t) s).currentIndex ∧
    MonoInvA ease t (stepA ease (EventA.tick t) s) := by
  have hs' := monoInvA_mono_tlb ease tlb t hle s hs
  rcases hs with ⟨k1, k2, k3, k4⟩
  by_cases hr : s.loopRunning = true
  case neg =>
    have hstep : stepA ease (EventA.tick t) s = s := by
      simp only [stepA]
      rw [if_neg hr]
    rw [hstep]
    exact ⟨le_refl _, hs'⟩
  case pos =>
    have hstep : stepA ease (EventA.tick t) s = updateA ease t s := by
      simp only [stepA]
      rw [if_pos hr]
    rw [hstep]
    by_cases h1 : t < startOffsetA
    · rw [updateA_pre ease t s h1]
      exact ⟨le_refl _, hs'⟩
    by_cases h2 : preambleEndA < t
    · rw [updateA_post ease t s h1 h2]
      refine ⟨?_, ?_, ?_, ?_, ?_⟩
      · show s.currentIndex ≤ (wordsA.length : Int) - 1
        rw [wordsA_len]
        omega
      · show (wordsA.length : Int) - 1 ≤ 47
        rw [wordsA_len]
        omega
      · intro hr' hp'
        rcases k2 hr' hp' with ⟨hl, -⟩
        refine ⟨hl, Or.inr ⟨h2, ?_⟩⟩
        show (wordsA.length : Int) - 1 = 47
        rw [wordsA_len]
        omega
      · intro hr' hp'
        refine Or.inr ⟨h2, ?_⟩
        show (wordsA.length : Int) - 1 = 47
        rw [wordsA_len]
        omega
      · intro hr' u hu h1u h2u
        exact absurd h2u (not_le.mpr (lt_of_lt_of_le h2 hu))
    have h1' : startOffsetA ≤ t := le_of_not_lt h1
    have h2' : t ≤ preambleEndA := le_of_not_lt h2
    by_cases hp : s.isPausedAtTranquility = true
    case pos =>
      rw [updateA_pin ease t s h1 h2 hp]
      rcases k2 hr hp with ⟨hl15, hdisj⟩
      have hci15 : s.currentIndex = 15 := by
        rcases hdisj with h15 | ⟨ht, -⟩
        · exact h15
        · exact absurd h2' (not_le.mpr (lt_of_lt_of_le ht hle))
      refine ⟨?_, ?_, ?_, ?_, ?_⟩
      · show s.currentIndex ≤ (15 : Int)
        omega
      · show (15 : Int) ≤ 47
        omega
      · intro hr' hp'
        exact ⟨hl15, Or.inl rfl⟩
      · intro hr' hp'
        have hx : s.isPausedAtTranquility = false := hp'
        rw [hp] at hx
        exact Bool.noConfusion hx
      · intro hr' u hu h1u h2u
        exact k4 hr u (le_trans hle hu) h1u h2u
    case neg =>
      have hpf : s.isPausedAtTranquility = false := by
        cases hb : s.isPausedAtTranquility
        · rfl
        · exact absurd hb hp
      by_cases hg : idxA ease t ≠ s.lastIndex ∧ 0 ≤ idxA ease t ∧
          idxA ease t < (wordsA.length : Int)
      case neg =>
        rw [updateA_mid_skip ease t s h1 h2 hp hg]
        exact ⟨le_refl _, hs'⟩
      case pos =>
        rw [updateA_mid_apply ease t s h1 h2 hp hg]
        have hcisl : s.currentIndex = s.lastIndex := by
          rcases k3 hr hpf with he | ⟨ht, -⟩
          · exact he
          · exact absurd h2' (not_le.mpr (lt_of_lt_of_le ht hle))
        have hlb : s.lastIndex ≤ idxA ease t := k4 hr t hle h1' h2'
        have hb0 : (0 : Int) ≤ idxA ease t := hg.2.1
        have hb1 : idxA ease t < 48 := by
          have := hg.2.2
          rw [wordsA_len] at this
          exact_mod_cast this
        rcases applyIndexA_cases (idxA ease t) t s with ⟨hcw, -, heq⟩ | ⟨-, heq⟩
        · have hnat : (idxA ease t).toNat < 48 := by omega
          have h15 : idxA ease t = 15 := by
            have := (tranq_unique (idxA ease t).toNat hnat).mp hcw
            omega
          rw [heq]
          refine ⟨?_, ?_, ?_, ?_, ?_⟩
          · show s.currentIndex ≤ idxA ease t
            omega
          · show idxA ease t ≤ 47
            omega
          · intro hr' hp'
            exact ⟨h15, Or.inl h15⟩
          · intro hr' hp'
            exact Bool.noConfusion hp'
          · intro hr' u hu h1u h2u
            show idxA ease t ≤ idxA ease u
            exact mono_idxA ease h t u h1' hu
        · rw [heq]
          rcases countBlockGen_proj (fun w => strStartsWith w 't')
            (fun w => strEndsWith w 'e') (idxA ease t)
            (cleanSliceA (wordsA.getD (idxA ease t).toNat ""))
            { s with lastIndex := idxA ease t, currentIndex := idxA ease t } with
            ⟨hci, hli, -, -, -, hpau, -, -, -⟩
          refine ⟨?_, ?_, ?_, ?_, ?_⟩
          · rw [hci]
            show s.currentIndex ≤ idxA ease t
            omega
          · rw [hci]
            show idxA ease t ≤ 47
            omega
          · intro hr' hp'
            rw [hpau] at hp'
            exact absurd hp' hp
          · intro hr' hp'
            rw [hci, hli]
            exact Or.inl rfl
          · intro hr' u hu h1u h2u
            rw [hli]
            show idxA ease t ≤ idxA ease u
            exact mono_idxA ease h t u h1' hu

/-- The resume timer firing during the keyword pause does not change the
applied index, and preserves the invariant. -/
lemma monoInvA_resume (ease : ℚ → ℚ) (tlb f : ℚ) (s : AppState)
    (hp : s.isPausedAtTranquility = true) (hs : MonoInvA ease tlb s) :
    s.currentIndex ≤ (stepA ease (EventA.resume f) s).currentIndex ∧
    MonoInvA ease tlb (stepA ease (EventA.resume f) s) := by
  rcases hs with ⟨k1, k2, k3, k4⟩
  rcases resumeFireA_proj f s with ⟨-, p2, p3, -, p5, -, -, -⟩
  have pci := resumeFireA_keeps_index f s
  have hstep : stepA ease (EventA.resume f) s = resumeFireA f s := rfl
  rw [hstep]
  by_cases hr : s.loopRunning = true
  case pos =>
    rcases k2 hr hp with ⟨hl15, hdisj⟩
    refine ⟨le_of_eq pci.symm, ?_, ?_, ?_, ?_⟩
    · rw [pci]
      exact k1
    · intro hr' hp'
      rw [p3] at hp'
      exact Bool.noConfusion hp'
    · intro hr' hp'
      rcases hdisj with h15 | ⟨ht, h47⟩
      · refine Or.inl ?_
        rw [pci, p2]
        exact h15
      · refine Or.inr ⟨ht, ?_⟩
        rw [pci]
        exact h47
    · intro hr' u hu h1u h2u
      rw [p2, ← hl15]
      exact k4 hr u hu h1u h2u
  case neg =>
    refine ⟨le_of_eq pci.symm, ?_, ?_, ?_, ?_⟩
    · rw [pci]
      exact k1
    · intro hr' hp'
      rw [p5] at hr'
      exact absurd hr' hr
    · intro hr' hp'
      rw [p5] at hr'
      exact absurd hr' hr
    · intro hr'
      rw [p5] at hr'
      exact absurd hr' hr

/-- A transport state change never decreases the applied index (ENDED pins
the last word, an upper bound for every applied index), and preserves the
invariant. -/
lemma monoInvA_sc (ease : ℚ → ℚ) (tlb : ℚ) (e : PlayerEvent) (s : AppState)
    (hs : MonoInvA ease tlb s) :
    s.currentIndex ≤ (stepA ease (EventA.stateChange e) s).currentIndex ∧
    MonoInvA ease tlb (stepA ease (EventA.stateChange e) s) := by
  rcases hs with ⟨k1, k2, k3, k4⟩
  have hstep : stepA ease (EventA.stateChange e) s = onStateChangeA e s := rfl
  rw [hstep]
  rcases onStateChangeA_cases e s with hcc | hcc | hcc <;> rw [hcc]
  · exact ⟨le_refl _, k1, k2, k3, k4⟩
  · refine ⟨le_refl _, k1, ?_, ?_, ?_⟩
    · intro hr' hp'
      exact Bool.noConfusion hr'
    · intro hr' hp'
      exact Bool.noConfusion hr'
    · intro hr'
      exact Bool.noConfusion hr'
  · refine ⟨?_, ?_, ?_, ?_, ?_⟩
    · show s.currentIndex ≤ (wordsA.length : Int) - 1
      rw [wordsA_len]
      omega
    · show (wordsA.length : Int) - 1 ≤ 47
      rw [wordsA_len]
      omega
    · intro hr' hp'
      exact Bool.noConfusion hr'
    · intro hr' hp'
      exact Bool.noConfusion hr'
    · intro hr'
      exact Bool.noConfusion hr'

/-- Non-decreasing applied index over every well-formed variant-A run, from
any state satisfying the invariant. -/
lemma runA_mono_aux (ease : ℚ → ℚ) (h : EaseOK ease) :
    ∀ (es : List EventA) (tlb : ℚ) (s : AppState), WFRunA ease tlb s es →
      MonoInvA ease tlb s →
      List.Chain' (· ≤ ·) (s.currentIndex :: idxTraceA ease s es) := by
  intro es
  induction es with
  | nil =>
      intro tlb s _ _
      simp only [idxTraceA]
      exact List.chain'_singleton _
  | cons e es ih =>
      intro tlb s hwf hs
      simp only [idxTraceA]
      cases hwf with
      | tick _ _ t _ hle hwf' =>
          rcases monoInvA_tick ease h tlb t s hle hs with ⟨hone, hinv⟩
          exact List.chain'_cons.mpr ⟨hone, ih t _ hwf' hinv⟩
      | res _ _ f _ hp hwf' =>
          rcases monoInvA_resume ease tlb f s hp hs with ⟨hone, hinv⟩
          exact List.chain'_cons.mpr ⟨hone, ih tlb _ hwf' hinv⟩
      | sc _ _ e' _ hwf' =>
          rcases monoInvA_sc ease tlb e' s hs with ⟨hone, hinv⟩
          exact List.chain'_cons.mpr ⟨hone, ih tlb _ hwf' hinv⟩

/-- Claim C2 amended: within one video-synced run the applied `activeIndex`
is non-decreasing provided the transport time readings are non-decreasing —
in the keyword-enabled variant over every well-formed run (ticks at
non-decreasing times, the resume timer firing during the keyword pause as
armed; the controlled keyword-resume seek is itself forward), and in the
newer variant over every non-decreasing tick sequence.  The counterexample
shows a backward seek regresses it. -/
theorem c2_amended (ease : ℚ → ℚ) (h : EaseOK ease) :
    (∀ (tlb : ℚ) (es : List EventA), WFRunA ease tlb startA es →
      List.Chain' (· ≤ ·) (startA.currentIndex :: idxTraceA ease startA es)) ∧
    (∀ ts : List ℚ, List.Sorted (· ≤ ·) ts →
      List.Chain' (· ≤ ·) (startB.currentIndex :: idxTraceB ease startB ts)) := by
  constructor
  · intro tlb es hwf
    apply runA_mono_aux ease h es tlb startA hwf
    refine ⟨?_, ?_, ?_, ?_⟩
    · show (-1 : Int) ≤ 47
      decide
    · intro hr hp
      exact Bool.noConfusion hp
    · intro hr hp
      exact Or.inl rfl
    · intro hr u hu h1u h2u
      have hnn := idxA_nonneg ease h u h1u
      show (-1 : Int) ≤ idxA ease u
      omega
  · intro ts hsort
    apply runB_mono_aux ease h ts hsort startB
    · intro _
      rfl
    · decide
    · intro t _ h1 _
      have hnn := idxB_nonneg ease h t h1
      show (-1 : Int) ≤ idxB ease t
      omega

theorem c2_amended_witness :
    EaseOK easeSq ∧
      WFRunA easeSq 0 startA [EventA.tick 77, EventA.resume 0, EventA.tick 80] ∧
      List.Sorted (· ≤ ·) [(130 : ℚ), 140] ∧
      List.Chain' (· ≤ ·) (startA.currentIndex ::
        idxTraceA easeSq startA [EventA.tick 77, EventA.resume 0, EventA.tick 80]) ∧
      List.Chain' (· ≤ ·) (startB.currentIndex :: idxTraceB easeSq startB [(130 : ℚ), 140]) := by
  have hp77 : (stepA easeSq (EventA.tick 77) startA).isPausedAtTranquility = true := by
    rw [tickA_77_startA]
    rfl
  have hwf : WFRunA easeSq 0 startA [EventA.tick 77, EventA.resume 0, EventA.tick 80] :=
    WFRunA.tick 0 startA 77 [EventA.resume 0, EventA.tick 80] (by norm_num)
      (WFRunA.res 77 _ 0 [EventA.tick 80] hp77
        (WFRunA.tick 77 _ 80 [] (by norm_num) (WFRunA.nil 80 _)))
  exact ⟨easeOK_easeSq, hwf, by decide,
    (c2_amended easeSq easeOK_easeSq).1 0 _ hwf,
    (c2_amended easeSq easeOK_easeSq).2 [(130 : ℚ), 140] (by decide)⟩
